import Mathlib

/-!
The board of posts of reaction-pics: the package `model` (`model/post.go`).

A shallow embedding of the board of posts: ranking (`multiWordRank`), filtering
(`FilterBoard`), paging (`LimitBoard`), sorting (`SortPostsByLikes`), insertion
(`AddPost`), keyword extraction (`Keywords`), reading a row (`CSVToPost`), lookup
(`GetPostByID`) and paths (`InternalURL`), and of the function `searchHandler` of the
package `server` (`server/server.go`) that combines them.

Conventions of the embedding.

* A Go `string` is a Lean `String`; the runes of a string are its characters.
* Go's `int` is the 64-bit signed integer.  Values are carried in `Int`; where the
  source adds two `int`s the sum is reduced by `wrapInt`.
* The read/write lock of a `Board` guards accesses only; it carries no data and is
  left out, so a `Board` is its sequence of posts.
* A Go slice is a `List`.  A run-time panic (slice bounds out of range) is `none`.
* Library behaviour that the Go documentation leaves open (the order of elements
  that compare equal under `sort.Slice`, the iteration order of a map) is an
  explicit rearrangement argument of the operation that depends on it.
-/

namespace ReactionPics

/-! ## Machine integers -/

/-- Largest value of a 32 bit signed integer, Go's `math.MaxInt32`. -/
def MaxInt32 : Int := 2147483647

/-- Largest value of Go's 64 bit `int`. -/
def MaxInt : Int := 9223372036854775807

/-- Smallest value of Go's 64 bit `int`. -/
def MinInt : Int := -9223372036854775808

/-- Two's complement reduction of an integer to the range of Go's 64 bit `int`. -/
def wrapInt (x : Int) : Int := (x + 9223372036854775808) % 18446744073709551616 - 9223372036854775808

/-! ## Strings -/

/-- Segments of a rune sequence between the runes that satisfy `sep`; there is always
at least one segment, and `k` separators give `k + 1` segments. -/
def splitRunes (sep : Char → Bool) : List Char → List (List Char)
  | [] => [[]]
  | c :: cs =>
    if sep c then [] :: splitRunes sep cs
    else
      match splitRunes sep cs with
      | [] => [[c]]
      | w :: ws => (c :: w) :: ws

/-- Go's `strings.Split(s, " ")`: the substrings of `s` between single space characters
(U+0020).  The empty string gives one empty substring. -/
def Split (s : String) : List String :=
  (splitRunes (fun c => c = ' ') s.toList).map String.mk

/-- Go's `unicode.IsSpace`: the runes with the Unicode White_Space property. -/
def IsSpace (r : Char) : Bool :=
  let n := r.toNat
  (9 ≤ n && n ≤ 13) || n = 32 || n = 133 || n = 160 || n = 5760 ||
    (8192 ≤ n && n ≤ 8202) || n = 8232 || n = 8233 || n = 8239 || n = 8287 || n = 12288

/-- Go's `strings.Fields`: the maximal runs of non-space runes of `s`, in order. -/
def Fields (s : String) : List String :=
  ((splitRunes IsSpace s.toList).filter (fun w => !w.isEmpty)).map String.mk

/-- Go's `strings.ToLower`: every rune is mapped by the Unicode lower-case mapping,
which is the argument `lower` (`unicode.ToLower`). -/
def ToLower (lower : Char → Char) (s : String) : String :=
  String.mk (s.toList.map lower)

/-- One row of the edit-distance recurrence: distances from `a :: s` to every suffix,
given the distances `levS` from `s`. -/
def levRow (a : Char) (levS : List Char → Nat) : List Char → Nat
  | [] => levS [] + 1
  | b :: t =>
    min (min (levS (b :: t) + 1) (levRow a levS t + 1)) (levS t + if a = b then 0 else 1)

/-- Levenshtein distance between two rune sequences: the least number of single-rune
insertions, deletions and substitutions turning one into the other. -/
def levRunes : List Char → List Char → Nat
  | [] => List.length
  | a :: s => levRow a (levRunes s)

/-- The function `fuzzy.LevenshteinDistance` of the library
`github.com/lithammer/fuzzysearch`, which is not part of this repository, by its
documented meaning: the Levenshtein distance between the rune sequences of `s` and
`t`. -/
def LevenshteinDistance (s t : String) : Int :=
  (levRunes s.toList t.toList : Nat)

/-! ## Posts and boards -/

/-- A single post (`type Post struct`). -/
structure Post where
  ID : Int
  Title : String
  URL : String
  Image : String
  Likes : Int
  deriving DecidableEq, Repr

/-- A container of posts (`type Board struct`); the lock is not modelled. -/
structure Board where
  Posts : List Post
  deriving DecidableEq, Repr

/-- Go's `NewBoard`. -/
def NewBoard (p : List Post) : Board := ⟨p⟩

/-! ## Ranking -/

/-- The inner loop of `multiWordRank`: running minimum of the distance between `query`
and every lower-cased word, starting from `minDistance`. -/
def minWordDistance (lower : Char → Char) (query : String) : List String → Int → Int
  | [], minDistance => minDistance
  | word :: rest, minDistance =>
    let wordDistance := LevenshteinDistance query (ToLower lower word)
    minWordDistance lower query rest (if wordDistance < minDistance then wordDistance else minDistance)

/-- The outer loop of `multiWordRank`, from the running total `distance`. -/
def multiWordRankLoop (lower : Char → Char) (post : Post) : List String → Int → Int
  | [], distance => distance
  | query :: rest, distance =>
    let minDistance := minWordDistance lower query (Split post.Title) MaxInt32
    multiWordRankLoop lower post rest (wrapInt (distance + minDistance))

/-- The function `multiWordRank(queries, post)`. -/
def multiWordRank (lower : Char → Char) (queries : List String) (post : Post) : Int :=
  multiWordRankLoop lower post queries 0

/-! ## Sorting -/

/-- Go's `sort.SliceStable` with comparison `less`: a stable sort.  An element is placed
before the first element of the sorted rest that is not less than it. -/
def SliceStable {α : Type} (less : α → α → Bool) (xs : List α) : List α :=
  xs.insertionSort (fun a b => less b a = false)

/-- The method `Board.FilterBoard(queries)`. -/
def FilterBoard (lower : Char → Char) (b : Board) (queries : List String) : Board :=
  let selectedPosts : List (Post × Int) := b.Posts.map (fun post => (post, multiWordRank lower queries post))
  let sorted := SliceStable (fun x y : Post × Int => decide (x.2 < y.2)) selectedPosts
  NewBoard (sorted.map Prod.fst)

/-- A rearrangement of sequences: the part of a library's behaviour that its
documentation leaves open (which of several equal elements comes first after an
unstable sort, in which order a map is iterated, the outcome of a shuffle). -/
structure Reorder (α : Type) where
  apply : List α → List α
  perm : ∀ l, (apply l).Perm l

/-- The rearrangement that keeps every sequence as it is. -/
def Reorder.same (α : Type) : Reorder α := ⟨fun l => l, fun l => List.Perm.refl l⟩

/-- The rearrangement that reverses every sequence. -/
def Reorder.rev (α : Type) : Reorder α := ⟨List.reverse, fun l => List.reverse_perm l⟩

/-- Go's `sort.Slice` with comparison `less`: a sort that is not stable.  The result is
sorted; the order among elements that compare equal is decided by `tie`. -/
def Slice {α : Type} (tie : Reorder α) (less : α → α → Bool) (xs : List α) : List α :=
  SliceStable less (tie.apply xs)

/-! ## Board operations -/

/-- The scan of `AddPost`: whether some post has exactly the title `title`. -/
def titlePresent (title : String) : List Post → Bool
  | [] => false
  | q :: rest => if q.Title = title then true else titlePresent title rest

/-- The method `Board.AddPost(p)`. -/
def AddPost (b : Board) (p : Post) : Board :=
  if titlePresent p.Title b.Posts then b else ⟨b.Posts ++ [p]⟩

/-- The method `Board.LimitBoard(offset, maxResults)`; `none` is the run-time panic of the
slice expression `b.Posts[offset:endIndex]`, which needs `0 ≤ offset ≤ endIndex ≤ cap`
(`endIndex` is at most `len(b.Posts)` here, hence at most the capacity). -/
def LimitBoard (b : Board) (offset maxResults : Int) : Option Board :=
  let len : Int := b.Posts.length
  let offset := if offset > len then len else offset
  let endIndex := wrapInt (offset + maxResults)
  let endIndex := if endIndex > len then len else endIndex
  if 0 ≤ offset ∧ offset ≤ endIndex then
    some ⟨(b.Posts.drop offset.toNat).take (endIndex - offset).toNat⟩
  else none

/-- The method `Board.sortPostsByLikes()`. -/
def sortPostsByLikes (tie : Reorder Post) (b : Board) : Board :=
  ⟨Slice tie (fun x y : Post => decide (x.Likes > y.Likes)) b.Posts⟩

/-- The method `Board.SortPostsByLikes()`, which calls `sortPostsByLikes` under the
lock. -/
def SortPostsByLikes (tie : Reorder Post) (b : Board) : Board :=
  sortPostsByLikes tie b

/-! ## Keywords -/

/-- Maximum number of keywords that a board returns. -/
def MaxKeywords : Int := 20

/-- The statement `words[word]++` on a `map[string]int`, kept as a list of entries with
distinct keys. -/
def mapIncr (word : String) : List (String × Int) → List (String × Int)
  | [] => [(word, 1)]
  | (k, v) :: rest => if k = word then (k, v + 1) :: rest else (k, v) :: mapIncr word rest

/-- The counting loops of `Keywords`: the map of occurrence counts of the lower-cased
fields of all titles that are not stopwords. -/
def countWords (lower : Char → Char) (stopwords : List String) (posts : List Post) :
    List (String × Int) :=
  posts.foldl
    (fun words post =>
      (Fields post.Title).foldl
        (fun words word =>
          let word := ToLower lower word
          if word ∈ stopwords then words else mapIncr word words)
        words)
    []

/-- The last loop of `Keywords`: titles are collected until `count` reaches
`MaxKeywords`. -/
def collectKeywords : List Post → Int → List String → List String
  | [], _, keywords => keywords
  | post :: rest, count, keywords =>
    let keywords := keywords ++ [post.Title]
    let count := count + 1
    if count ≥ MaxKeywords then keywords else collectKeywords rest count keywords

/-- The post `Post{Title: word, Likes: int64(count)}` that `Keywords` makes of a map entry;
the other fields have their zero values. -/
def wordPost (wc : String × Int) : Post := ⟨0, wc.1, "", "", wc.2⟩

/-- The method `Board.Keywords()`.  The result of `loadStopwords()` is the argument
`stopwords`; `iter` is the order in which the map `words` is iterated and `tie` the
order `sort.Slice` leaves among words with equal counts. -/
def Keywords (lower : Char → Char) (stopwords : List String) (iter : Reorder (String × Int))
    (tie : Reorder Post) (b : Board) : List String :=
  let words := countWords lower stopwords b.Posts
  let board := (iter.apply words).foldl
    (fun board wc => AddPost board (wordPost wc)) (NewBoard [])
  let board := SortPostsByLikes tie board
  collectKeywords board.Posts 0 []

/-! ## Reading posts, lookup and paths -/

/-- The constant `imageRootPath`. -/
def imageRootPath : String := "https://img.reaction.pics/file/reaction-pics/"

/-- The value of a non-empty sequence of decimal digits, read after the digits `acc`;
no value when a rune is not a digit. -/
def parseDigits : List Char → Nat → Option Nat
  | [], acc => some acc
  | c :: cs, acc =>
    if '0' ≤ c ∧ c ≤ '9' then parseDigits cs (acc * 10 + (c.toNat - '0'.toNat)) else none

/-- Go's `strconv.ParseInt(s, 10, 64)`: an optional sign followed by one or more decimal
digits, of a value in the range of `int64`; `none` is a returned error (bad syntax or
out of range). -/
def ParseInt (s : String) : Option Int :=
  match s.toList with
  | [] => none
  | c :: cs =>
    let neg := decide (c = '-')
    let digits := if c = '+' ∨ c = '-' then cs else c :: cs
    match digits with
    | [] => none
    | d :: ds =>
      match parseDigits (d :: ds) 0 with
      | none => none
      | some un =>
        if neg then (if un > 9223372036854775808 then none else some (-(un : Int)))
        else (if un ≥ 9223372036854775808 then none else some (un : Int))

/-- Go's `strconv.Atoi` for the 64 bit `int`: the same as `ParseInt(s, 10, 64)`. -/
def Atoi (s : String) : Option Int := ParseInt s

/-- The function `CSVToPost(row)`.  A field that does not parse is reported and read as 0;
`none` is the run-time panic of an index beyond the row. -/
def CSVToPost (row : List String) : Option Post :=
  match row[0]? with
  | none => none
  | some row0 =>
    let id := match ParseInt row0 with
      | some id => id
      | none => 0
    match row[3]? with
    | none => none
    | some row3 =>
      let imageURL := imageRootPath ++ row3
      match row[4]? with
      | none => none
      | some row4 =>
        let likes := match ParseInt row4 with
          | some likes => likes
          | none => 0
        match row[1]?, row[2]? with
        | some row1, some row2 => some ⟨id, row1, row2, imageURL, likes⟩
        | _, _ => none

/-- The loop of `GetPostByID`. -/
def findByID (postID : Int) : List Post → Option Post
  | [] => none
  | post :: rest => if post.ID = postID then some post else findByID postID rest

/-- The method `Board.GetPostByID(postID)`: the post found, `none` for `nil`, and the
board after the call. -/
def GetPostByID (b : Board) (postID : Int) : Option Post × Board :=
  (findByID postID b.Posts, b)

/-- The function `slug.Make` of the library `github.com/gosimple/slug`, which is not part
of this repository: a function from strings to strings whose results hold only the
ASCII letters, digits, hyphens and underscores that the library lets through, so that
their bytes are their runes. -/
structure Slugger where
  make : String → String
  ascii : ∀ s : String, ∀ c ∈ (make s).toList, c.toNat < 128

/-- Go's `strconv.FormatInt(i, 10)`: the decimal rendering, with a minus sign for a
negative number. -/
def FormatInt (i : Int) : String := toString i

/-- The method `Post.InternalURL()`.  `len(slug)` is the number of bytes and `slug[0:30]`
the first 30 bytes, which for a slug are its first 30 runes. -/
def InternalURL (slugger : Slugger) (p : Post) : String :=
  let slug := slugger.make p.Title
  let slug := if slug.utf8ByteSize > 30 then String.mk (slug.toList.take 30) else slug
  "/post/" ++ FormatInt p.ID ++ "/" ++ slug

/-- A slug function for examples: runes outside ASCII are replaced by hyphens. -/
def Slugger.asciiOnly : Slugger :=
  ⟨fun s => String.mk (s.toList.map (fun c => if c.toNat < 128 then c else '-')),
   fun s c hc => by
    obtain ⟨d, _, hd⟩ := List.mem_map.1 hc
    by_cases h : d.toNat < 128
    · rw [if_pos h] at hd; rw [← hd]; exact h
    · rw [if_neg h] at hd; rw [← hd]; decide⟩

/-- The method `Board.URLs()`. -/
def URLs (slugger : Slugger) (b : Board) : List String :=
  b.Posts.map (InternalURL slugger)

/-! ## The search handler -/

/-- The method `Board.RandomizePosts()`: `rand.Shuffle` rearranges the posts. -/
def RandomizePosts (shuffle : Reorder Post) (b : Board) : Board :=
  ⟨shuffle.apply b.Posts⟩

/-- Go's `strings.TrimSpace`: the string without its leading and trailing white space. -/
def TrimSpace (s : String) : String :=
  String.mk ((s.toList.dropWhile IsSpace).reverse.dropWhile IsSpace).reverse

/-- The constant `maxResults` of the server. -/
def maxResults : Int := 20

/-- The values that `searchHandler` puts in its answer: `offset`, `totalResults` and
`data`. -/
structure SearchResult where
  offset : Int
  totalResults : Int
  data : Board
  deriving DecidableEq, Repr

/-- The function `searchHandler` on the board `board`, for a request whose parameters
`query` and `offset` have the values `query` and `offsetString`; `none` is a run-time
panic. -/
def searchHandler (lower : Char → Char) (shuffle tie : Reorder Post) (board : Board)
    (query offsetString : String) : Option SearchResult :=
  let query := TrimSpace (ToLower lower query)
  let queries := Split query
  let queriedBoard := FilterBoard lower board queries
  let queriedBoard := if query = "" then RandomizePosts shuffle queriedBoard else queriedBoard
  let offset := match Atoi offsetString with
    | some offset => offset
    | none => 0
  let totalResults : Int := queriedBoard.Posts.length
  match LimitBoard queriedBoard offset maxResults with
  | none => none
  | some queriedBoard =>
    let queriedBoard := if query = "" then SortPostsByLikes tie queriedBoard else queriedBoard
    some ⟨offset, totalResults, queriedBoard⟩

/-! ## Notions used to state the properties -/

/-- Whether the title of `p` has a word, one of its whitespace-split words, whose
lower-cased form is `q`. -/
def hasWord (lower : Char → Char) (q : String) (p : Post) : Bool :=
  (Fields p.Title).any (fun w => decide (ToLower lower w = q))

/-- Whether the title of `p` has a segment between single spaces (U+0020), as
`strings.Split(title, " ")` cuts it, whose lower-cased form is `q`.  A segment may be
empty, and may hold a tab or other white space. -/
def hasSegment (lower : Char → Char) (q : String) (p : Post) : Bool :=
  (Split p.Title).any (fun w => decide (ToLower lower w = q))

/-- Whether the only white space of a title is the single space character. -/
def spacesOnly (title : String) : Prop :=
  ∀ c ∈ title.toList, IsSpace c = true → c = ' '

/-- The distances between `query` and the lower-cased segments of `title` between single
spaces. -/
def segmentDistances (lower : Char → Char) (query title : String) : List Int :=
  (Split title).map (fun w => LevenshteinDistance query (ToLower lower w))

/-- The lower-cased whitespace-delimited tokens of all titles that are not stopwords, in
order of occurrence and with repetitions. -/
def keywordTokens (lower : Char → Char) (stopwords : List String) (posts : List Post) :
    List String :=
  (posts.flatMap (fun post => (Fields post.Title).map (ToLower lower))).filter
    (fun w => !decide (w ∈ stopwords))

/-- The offset that `searchHandler` reads from the request parameter `offset`: its
value as an `int`, and 0 when it does not parse. -/
def requestOffset (offsetString : String) : Int :=
  match Atoi offsetString with
  | some offset => offset
  | none => 0

/-- The number of occurrences of the token `w` over all titles. -/
def occurrences (lower : Char → Char) (stopwords : List String) (posts : List Post)
    (w : String) : Int :=
  ((keywordTokens lower stopwords posts).count w : Nat)

/-- The value `words[word]` of a `map[string]int` kept as a list of entries: 0 for a key
that is absent. -/
def mapGet (word : String) : List (String × Int) → Int
  | [] => 0
  | (k, v) :: rest => if k = word then v else mapGet word rest

/-- The least of `cap` and the members of a list. -/
def cappedMin (cap : Int) : List Int → Int
  | [] => cap
  | d :: ds => min d (cappedMin cap ds)

/-- The least member of a list of distances; the empty list has none. -/
def minimumDistance : List Int → Option Int
  | [] => none
  | d :: ds =>
    match minimumDistance ds with
    | none => some d
    | some m => some (min d m)

/-- The rank in the words of the specification: the sum, over the query terms, of the
minimum distance between the term and each whitespace-split, lower-cased word of the
title.  There is no value when a minimum is taken over no word. -/
def specMultiWordRank (lower : Char → Char) (queries : List String) (post : Post) : Option Int :=
  match queries with
  | [] => some 0
  | query :: rest =>
    match minimumDistance ((Fields post.Title).map
        (fun w => LevenshteinDistance query (ToLower lower w))),
      specMultiWordRank lower rest post with
    | some m, some r => some (m + r)
    | _, _ => none

/-! ## Properties of the sorts -/

/-- The result of `sort.SliceStable` is a rearrangement of its input. -/
theorem SliceStable_perm {α : Type} (less : α → α → Bool) (xs : List α) :
    (SliceStable less xs).Perm xs :=
  List.perm_insertionSort _ xs

/-- When `less` compares an integer key, the result of `sort.SliceStable` is in
non-decreasing order of the key. -/
theorem SliceStable_sorted {α : Type} (less : α → α → Bool) (key : α → Int)
    (hless : ∀ x y, less x y = true ↔ key x < key y) (xs : List α) :
    (SliceStable less xs).Pairwise (fun a b => key a ≤ key b) := by
  have hr : ∀ a b, (less b a = false) ↔ key a ≤ key b := by
    intro a b
    rw [← Bool.not_eq_true, hless, not_lt]
  haveI : IsTotal α (fun a b => less b a = false) :=
    ⟨fun a b => by rw [hr, hr]; exact le_total _ _⟩
  haveI : IsTrans α (fun a b => less b a = false) :=
    ⟨fun a b c hab hbc => by rw [hr] at *; exact le_trans hab hbc⟩
  have h := List.sorted_insertionSort (fun a b => less b a = false) xs
  exact List.Pairwise.imp (fun {a b} hab => (hr a b).1 hab) h

/-- Stability of `sort.SliceStable`: the elements with a given key keep their order. -/
theorem SliceStable_stable {α : Type} (less : α → α → Bool) (key : α → Int)
    (hless : ∀ x y, less x y = true ↔ key x < key y) (xs : List α) (k : Int) :
    (SliceStable less xs).filter (fun a => decide (key a = k)) =
      xs.filter (fun a => decide (key a = k)) := by
  have hr : ∀ a b, (less b a = false) ↔ key a ≤ key b := by
    intro a b
    rw [← Bool.not_eq_true, hless, not_lt]
  have hpw : (xs.filter (fun a => decide (key a = k))).Pairwise (fun a b => less b a = false) := by
    rw [List.pairwise_iff_forall_sublist]
    intro a b hab
    have ha : a ∈ xs.filter (fun a => decide (key a = k)) := hab.subset (by simp)
    have hb : b ∈ xs.filter (fun a => decide (key a = k)) := hab.subset (by simp)
    simp only [List.mem_filter, decide_eq_true_eq] at ha hb
    rw [hr, ha.2, hb.2]
  have hsub : List.Sublist (xs.filter (fun a => decide (key a = k))) (SliceStable less xs) :=
    List.sublist_insertionSort hpw (List.filter_sublist _)
  have hsub2 := hsub.filter (fun a => decide (key a = k))
  rw [List.filter_filter] at hsub2
  simp only [Bool.and_self] at hsub2
  have hlen : ((SliceStable less xs).filter (fun a => decide (key a = k))).length =
      (xs.filter (fun a => decide (key a = k))).length :=
    ((SliceStable_perm less xs).filter _).length_eq
  exact (hsub2.eq_of_length hlen.symm).symm

/-- Two sequences in non-decreasing order of a key that agree on the elements of every
key are equal: a sequence has one stable sort. -/
theorem sorted_classes_unique {α : Type} (key : α → Int) (ys zs : List α)
    (hy : ys.Pairwise (fun a b => key a ≤ key b))
    (hz : zs.Pairwise (fun a b => key a ≤ key b))
    (hf : ∀ k : Int, ys.filter (fun a => decide (key a = k)) =
      zs.filter (fun a => decide (key a = k))) :
    ys = zs := by
  induction ys generalizing zs with
  | nil =>
    cases zs with
    | nil => rfl
    | cons z zs =>
      have h := hf (key z)
      rw [List.filter_nil, List.filter_cons_of_pos (by simp)] at h
      exact List.noConfusion h
  | cons y ys ih =>
    cases zs with
    | nil =>
      have h := hf (key y)
      rw [List.filter_nil, List.filter_cons_of_pos (by simp)] at h
      exact List.noConfusion h
    | cons z zs =>
      obtain ⟨hy1, hy2⟩ := List.pairwise_cons.1 hy
      obtain ⟨hz1, hz2⟩ := List.pairwise_cons.1 hz
      have hzy : key z ≤ key y := by
        have hmem : y ∈ (z :: zs).filter (fun a => decide (key a = key y)) := by
          rw [← hf (key y)]
          exact List.mem_filter.2 ⟨List.mem_cons_self y ys, by simp⟩
        rcases List.mem_cons.1 (List.mem_filter.1 hmem).1 with h | h
        · rw [h]
        · exact hz1 y h
      have hyz : key y ≤ key z := by
        have hmem : z ∈ (y :: ys).filter (fun a => decide (key a = key z)) := by
          rw [hf (key z)]
          exact List.mem_filter.2 ⟨List.mem_cons_self z zs, by simp⟩
        rcases List.mem_cons.1 (List.mem_filter.1 hmem).1 with h | h
        · rw [h]
        · exact hy1 z h
      have hk : key y = key z := le_antisymm hyz hzy
      have h0 := hf (key y)
      rw [List.filter_cons_of_pos (by simp), List.filter_cons_of_pos (by simp [hk])] at h0
      injection h0 with hhead htail
      have htl : ∀ k : Int, ys.filter (fun a => decide (key a = k)) =
          zs.filter (fun a => decide (key a = k)) := by
        intro k
        by_cases hkk : key y = k
        · rw [← hkk]; exact htail
        · have h := hf k
          have hkz : ¬ key z = k := by rw [← hk]; exact hkk
          rw [List.filter_cons_of_neg (by simpa using hkk),
            List.filter_cons_of_neg (by simpa using hkz)] at h
          exact h
      rw [hhead, ih zs hy2 hz2 htl]

/-- A sequence that is already in order is left as it is by `sort.SliceStable`. -/
theorem SliceStable_of_sorted {α : Type} (less : α → α → Bool) (xs : List α)
    (h : xs.Pairwise (fun a b => less b a = false)) : SliceStable less xs = xs :=
  List.Sorted.insertionSort_eq h

/-- Every sorted rearrangement of `xs` is a possible result of `sort.Slice` on `xs`:
the tie order accounts for all the results that the contract of `sort.Slice` allows. -/
theorem Slice_any_sorted {α : Type} (less : α → α → Bool) (xs ys : List α)
    (hp : ys.Perm xs) (hs : ys.Pairwise (fun a b => less b a = false)) :
    ∃ tie : Reorder α, Slice tie less xs = ys := by
  classical
  refine ⟨⟨fun l => if l.Perm ys then ys else l, ?_⟩, ?_⟩
  · intro l
    show (if l.Perm ys then ys else l).Perm l
    by_cases h : l.Perm ys
    · rw [if_pos h]; exact h.symm
    · rw [if_neg h]
  · show SliceStable less (if xs.Perm ys then ys else xs) = ys
    rw [if_pos hp.symm]
    exact SliceStable_of_sorted less ys hs

/-! ## FilterBoard -/

/-- Every pair that `FilterBoard` sorts carries the rank of its post. -/
theorem FilterBoard_pairs (lower : Char → Char) (posts : List Post) (queries : List String)
    (x : Post × Int)
    (hx : x ∈ SliceStable (fun x y : Post × Int => decide (x.2 < y.2))
      (posts.map (fun post => (post, multiWordRank lower queries post)))) :
    x.2 = multiWordRank lower queries x.1 := by
  have hmem := (SliceStable_perm _ _).mem_iff.1 hx
  obtain ⟨p, _, rfl⟩ := List.mem_map.1 hmem
  rfl

/-- The posts of `FilterBoard` are a rearrangement of the posts of the board. -/
theorem FilterBoard_perm (lower : Char → Char) (b : Board) (queries : List String) :
    (FilterBoard lower b queries).Posts.Perm b.Posts := by
  have hfst : (b.Posts.map (fun post => (post, multiWordRank lower queries post))).map Prod.fst
      = b.Posts := by
    rw [List.map_map]; simp [Function.comp_def]
  have h := (SliceStable_perm (fun x y : Post × Int => decide (x.2 < y.2))
    (b.Posts.map (fun post => (post, multiWordRank lower queries post)))).map Prod.fst
  rw [hfst] at h
  exact h

/-- The posts of `FilterBoard` are in non-decreasing order of rank. -/
theorem FilterBoard_sorted (lower : Char → Char) (b : Board) (queries : List String) :
    (FilterBoard lower b queries).Posts.Pairwise
      (fun p q => multiWordRank lower queries p ≤ multiWordRank lower queries q) := by
  have hless : ∀ x y : Post × Int, decide (x.2 < y.2) = true ↔ x.2 < y.2 := by
    intro x y; simp
  show List.Pairwise _ (List.map Prod.fst _)
  rw [List.pairwise_map]
  have h := SliceStable_sorted (fun x y : Post × Int => decide (x.2 < y.2)) Prod.snd hless
    (b.Posts.map (fun post => (post, multiWordRank lower queries post)))
  refine List.Pairwise.imp_of_mem ?_ h
  intro x y hx hy hxy
  rw [← FilterBoard_pairs lower b.Posts queries x hx,
    ← FilterBoard_pairs lower b.Posts queries y hy]
  exact hxy

/-- The posts of a given rank are in the same order before and after `FilterBoard`. -/
theorem FilterBoard_rank_class (lower : Char → Char) (b : Board) (queries : List String)
    (k : Int) :
    (FilterBoard lower b queries).Posts.filter
        (fun p => decide (multiWordRank lower queries p = k)) =
      b.Posts.filter (fun p => decide (multiWordRank lower queries p = k)) := by
  have hless : ∀ x y : Post × Int, decide (x.2 < y.2) = true ↔ x.2 < y.2 := by
    intro x y; simp
  show List.filter _ (List.map Prod.fst _) = _
  rw [List.filter_map]
  have hcongr : List.filter ((fun p => decide (multiWordRank lower queries p = k)) ∘ Prod.fst)
      (SliceStable (fun x y : Post × Int => decide (x.2 < y.2))
        (b.Posts.map (fun post => (post, multiWordRank lower queries post)))) =
      List.filter (fun x : Post × Int => decide (x.2 = k))
      (SliceStable (fun x y : Post × Int => decide (x.2 < y.2))
        (b.Posts.map (fun post => (post, multiWordRank lower queries post)))) := by
    apply List.filter_congr
    intro x hx
    simp only [Function.comp_apply]
    rw [FilterBoard_pairs lower b.Posts queries x hx]
  rw [hcongr, SliceStable_stable _ Prod.snd hless, List.filter_map, List.map_map]
  simp [Function.comp_def]

/-! ## Edit distance and rank -/

/-- In range, the reduction to 64 bits changes nothing. -/
theorem wrapInt_of_range (x : Int) (h1 : MinInt ≤ x) (h2 : x ≤ MaxInt) : wrapInt x = x := by
  unfold wrapInt
  unfold MinInt at h1
  unfold MaxInt at h2
  omega

/-- The distance from the empty sequence is the length. -/
theorem levRunes_nil (t : List Char) : levRunes [] t = t.length := rfl

/-- The distance to the empty sequence is the length. -/
theorem levRunes_nil_right (s : List Char) : levRunes s [] = s.length := by
  induction s with
  | nil => rfl
  | cons a s ih => simp [levRunes, levRow, ih]

/-- The edit distance is zero exactly between equal sequences. -/
theorem levRunes_eq_zero (s t : List Char) : levRunes s t = 0 ↔ s = t := by
  induction s generalizing t with
  | nil =>
    rw [levRunes_nil]
    constructor
    · intro h; exact (List.length_eq_zero.1 h).symm
    · intro h; rw [← h]; rfl
  | cons a s ih =>
    cases t with
    | nil => simp [levRunes, levRow]
    | cons b t =>
      show min (min (levRunes s (b :: t) + 1) (levRow a (levRunes s) t + 1))
        (levRunes s t + if a = b then 0 else 1) = 0 ↔ _
      constructor
      · intro h
        have h3 : levRunes s t + (if a = b then 0 else 1) = 0 := by omega
        by_cases hab : a = b
        · rw [if_pos hab] at h3
          rw [hab, (ih t).1 (by omega)]
        · rw [if_neg hab] at h3
          omega
      · intro h
        injection h with h1 h2
        rw [if_pos h1, (ih t).2 h2]
        omega

/-- The distance between two strings is not negative. -/
theorem LevenshteinDistance_nonneg (s t : String) : 0 ≤ LevenshteinDistance s t :=
  Int.ofNat_nonneg _

/-- The distance between two strings is zero exactly when they are equal. -/
theorem LevenshteinDistance_eq_zero (s t : String) : LevenshteinDistance s t = 0 ↔ s = t := by
  unfold LevenshteinDistance
  rw [Int.natCast_eq_zero, levRunes_eq_zero]
  constructor
  · intro h; exact String.ext h
  · intro h; rw [h]

/-- The distance from the empty string is the number of runes. -/
theorem LevenshteinDistance_empty (t : String) : LevenshteinDistance "" t = (t.length : Int) := by
  unfold LevenshteinDistance
  rfl

/-- The aggregate `cappedMin` with the cap lowered by `d`. -/
theorem cappedMin_min (a d : Int) (ds : List Int) :
    cappedMin (min a d) ds = min d (cappedMin a ds) := by
  induction ds with
  | nil => exact min_comm a d
  | cons e ds ih =>
    show min e (cappedMin (min a d) ds) = min d (min e (cappedMin a ds))
    rw [ih]
    exact min_left_comm e d _

/-- The value `cappedMin cap ds` is the least element of `cap` and the members of `ds`. -/
theorem cappedMin_isLeast (cap : Int) (ds : List Int) :
    IsLeast {d : Int | d = cap ∨ d ∈ ds} (cappedMin cap ds) := by
  induction ds with
  | nil =>
    refine ⟨Or.inl rfl, ?_⟩
    intro d hd
    rcases hd with hd | hd
    · exact le_of_eq hd.symm
    · exact absurd hd (List.not_mem_nil d)
  | cons e ds ih =>
    obtain ⟨hmem, hlb⟩ := ih
    refine ⟨?_, ?_⟩
    · show min e (cappedMin cap ds) = cap ∨ min e (cappedMin cap ds) ∈ e :: ds
      rcases le_total e (cappedMin cap ds) with h | h
      · rw [min_eq_left h]; exact Or.inr (List.mem_cons_self e ds)
      · rw [min_eq_right h]
        rcases hmem with h1 | h1
        · exact Or.inl h1
        · exact Or.inr (List.mem_cons_of_mem e h1)
    · intro d hd
      show min e (cappedMin cap ds) ≤ d
      rcases hd with hd | hd
      · exact le_trans (min_le_right _ _) (hlb (Or.inl hd))
      · rcases List.mem_cons.1 hd with h1 | h1
        · rw [h1]; exact min_le_left _ _
        · exact le_trans (min_le_right _ _) (hlb (Or.inr h1))

/-- The inner loop of `multiWordRank` computes the least of its start value and the
distances to the lower-cased words. -/
theorem minWordDistance_eq (lower : Char → Char) (query : String) (words : List String)
    (init : Int) :
    minWordDistance lower query words init =
      cappedMin init (words.map (fun w => LevenshteinDistance query (ToLower lower w))) := by
  induction words generalizing init with
  | nil => rfl
  | cons w ws ih =>
    show minWordDistance lower query ws _ = min _ (cappedMin init _)
    rw [ih, ← cappedMin_min]
    congr 1
    rcases lt_or_le (LevenshteinDistance query (ToLower lower w)) init with h | h
    · rw [if_pos h, min_eq_right (le_of_lt h)]
    · rw [if_neg (not_lt.2 h), min_eq_left h]

/-- The contribution of one query term lies between `0` and `MaxInt32`. -/
theorem cappedMin_range (lower : Char → Char) (query title : String) :
    0 ≤ cappedMin MaxInt32 (segmentDistances lower query title) ∧
      cappedMin MaxInt32 (segmentDistances lower query title) ≤ MaxInt32 := by
  obtain ⟨hmem, hlb⟩ := cappedMin_isLeast MaxInt32 (segmentDistances lower query title)
  refine ⟨?_, hlb (Or.inl rfl)⟩
  rcases hmem with h | h
  · rw [h]; decide
  · obtain ⟨w, _, hw⟩ := List.mem_map.1 h
    rw [← hw]
    exact LevenshteinDistance_nonneg _ _

/-- The contribution of one query term is zero exactly when a lower-cased segment of the
title between single spaces is the term. -/
theorem cappedMin_eq_zero (lower : Char → Char) (query title : String) :
    cappedMin MaxInt32 (segmentDistances lower query title) = 0 ↔
      ∃ w ∈ Split title, ToLower lower w = query := by
  obtain ⟨hmem, hlb⟩ := cappedMin_isLeast MaxInt32 (segmentDistances lower query title)
  constructor
  · intro h0
    rw [h0] at hmem
    rcases hmem with h | h
    · exact absurd h (by decide)
    · obtain ⟨w, hw, hd⟩ := List.mem_map.1 h
      exact ⟨w, hw, ((LevenshteinDistance_eq_zero _ _).1 hd).symm⟩
  · rintro ⟨w, hw, hq⟩
    have hin : (0 : Int) ∈ segmentDistances lower query title :=
      List.mem_map.2 ⟨w, hw, (LevenshteinDistance_eq_zero _ _).2 hq.symm⟩
    exact le_antisymm (hlb (Or.inr hin)) (cappedMin_range lower query title).1

/-- The outer loop of `multiWordRank` adds the contributions of the terms, as long as the
total stays in the range of `int`. -/
theorem multiWordRankLoop_eq (lower : Char → Char) (post : Post) (queries : List String)
    (distance : Int) (h0 : 0 ≤ distance)
    (hmax : distance + (queries.length : Int) * MaxInt32 ≤ MaxInt) :
    multiWordRankLoop lower post queries distance =
      distance + (queries.map
        (fun q => cappedMin MaxInt32 (segmentDistances lower q post.Title))).sum := by
  induction queries generalizing distance with
  | nil => simp [multiWordRankLoop]
  | cons q qs ih =>
    have hr := cappedMin_range lower q post.Title
    have hlen : ((q :: qs).length : Int) = (qs.length : Int) + 1 := by simp
    rw [hlen] at hmax
    have hqs : (0 : Int) ≤ (qs.length : Int) * MaxInt32 :=
      mul_nonneg (Int.ofNat_nonneg _) (by decide)
    have hM : MaxInt32 = 2147483647 := rfl
    have hI : MinInt = -9223372036854775808 := rfl
    show multiWordRankLoop lower post qs
      (wrapInt (distance + minWordDistance lower q (Split post.Title) MaxInt32)) = _
    rw [minWordDistance_eq]
    change multiWordRankLoop lower post qs
      (wrapInt (distance + cappedMin MaxInt32 (segmentDistances lower q post.Title))) = _
    rw [wrapInt_of_range _ (by omega) (by linarith), ih _ (by omega) (by linarith)]
    simp only [List.map_cons, List.sum_cons]
    ring

/-- The rank for a single query term. -/
theorem multiWordRank_single (lower : Char → Char) (q : String) (post : Post) :
    multiWordRank lower [q] post = cappedMin MaxInt32 (segmentDistances lower q post.Title) := by
  have hmax : (0 : Int) + (([q] : List String).length : Int) * MaxInt32 ≤ MaxInt := by
    simp only [List.length_singleton]
    decide
  unfold multiWordRank
  rw [multiWordRankLoop_eq lower post [q] 0 (le_refl 0) hmax]
  simp

/-- A sequence in non-decreasing order of a non-negative key starts with its elements of
key zero. -/
theorem sorted_zero_first {α : Type} (key : α → Int) (l : List α)
    (hs : l.Pairwise (fun a b => key a ≤ key b)) (h0 : ∀ a ∈ l, 0 ≤ key a) :
    l = l.filter (fun a => decide (key a = 0)) ++ l.filter (fun a => !decide (key a = 0)) := by
  induction l with
  | nil => rfl
  | cons a l ih =>
    obtain ⟨ha, hl⟩ := List.pairwise_cons.1 hs
    have ih1 := ih hl (fun x hx => h0 x (List.mem_cons_of_mem a hx))
    by_cases hk : key a = 0
    · rw [List.filter_cons_of_pos (by simpa using hk), List.filter_cons_of_neg (by simpa using hk),
        List.cons_append, ← ih1]
    · have hpos : 0 < key a := lt_of_le_of_ne (h0 a (List.mem_cons_self a l)) (Ne.symm hk)
      have hnone : l.filter (fun a => decide (key a = 0)) = [] := by
        rw [List.filter_eq_nil_iff]
        intro x hx
        have := ha x hx
        simp only [decide_eq_true_eq]
        omega
      have hall : l.filter (fun a => !decide (key a = 0)) = l := by
        rw [List.filter_eq_self]
        intro x hx
        have := ha x hx
        simp only [Bool.not_eq_true', decide_eq_false_iff_not]
        omega
      rw [List.filter_cons_of_neg (by simpa using hk), List.filter_cons_of_pos (by simpa using hk),
        hnone, hall, List.nil_append]

/-- For a single term, rank zero means that the title has the term as a lower-cased
segment between single spaces. -/
theorem multiWordRank_single_eq_zero (lower : Char → Char) (q : String) (post : Post) :
    multiWordRank lower [q] post = 0 ↔ hasSegment lower q post = true := by
  rw [multiWordRank_single, cappedMin_eq_zero]
  unfold hasSegment
  rw [List.any_eq_true]
  constructor
  · rintro ⟨w, hw, h⟩; exact ⟨w, hw, by simpa using h⟩
  · rintro ⟨w, hw, h⟩; exact ⟨w, hw, by simpa using h⟩

/-- C1: `FilterBoard` returns the posts of the board, nothing dropped and nothing
duplicated, in non-decreasing order of `multiWordRank`, and for every rank the posts of
that rank are in the same order as in the original board: the result is the stable sort
of the board by rank, the only sequence in rank order that keeps the order within every
rank. -/
theorem FilterBoard_stable_sort (lower : Char → Char) (b : Board) (queries : List String) :
    (FilterBoard lower b queries).Posts.Perm b.Posts ∧
    (FilterBoard lower b queries).Posts.Pairwise
      (fun p q => multiWordRank lower queries p ≤ multiWordRank lower queries q) ∧
    (∀ k : Int,
      (FilterBoard lower b queries).Posts.filter
          (fun p => decide (multiWordRank lower queries p = k)) =
        b.Posts.filter (fun p => decide (multiWordRank lower queries p = k))) ∧
    ∀ l : List Post,
      l.Pairwise (fun p q => multiWordRank lower queries p ≤ multiWordRank lower queries q) →
      (∀ k : Int, l.filter (fun p => decide (multiWordRank lower queries p = k)) =
        b.Posts.filter (fun p => decide (multiWordRank lower queries p = k))) →
      l = (FilterBoard lower b queries).Posts :=
  ⟨FilterBoard_perm lower b queries, FilterBoard_sorted lower b queries,
    FilterBoard_rank_class lower b queries,
    fun l hl hf => sorted_classes_unique (multiWordRank lower queries) l
      (FilterBoard lower b queries).Posts hl (FilterBoard_sorted lower b queries)
      (fun k => (hf k).trans (FilterBoard_rank_class lower b queries k).symm)⟩

/-- For a single term the result of `FilterBoard` starts with the posts whose title has
the term as a lower-cased segment, in their original order, and the posts after them
have no such segment. -/
theorem FilterBoard_segment_first (lower : Char → Char) (b : Board) (q : String) :
    ∃ rest : List Post,
      (FilterBoard lower b [q]).Posts = b.Posts.filter (hasSegment lower q) ++ rest ∧
      ∀ p ∈ rest, hasSegment lower q p = false := by
  refine ⟨(FilterBoard lower b [q]).Posts.filter
    (fun p => !decide (multiWordRank lower [q] p = 0)), ?_, ?_⟩
  · have hsplit := sorted_zero_first (multiWordRank lower [q]) (FilterBoard lower b [q]).Posts
      (FilterBoard_sorted lower b [q])
      (fun p _ => by rw [multiWordRank_single]; exact (cappedMin_range lower q p.Title).1)
    rw [FilterBoard_rank_class lower b [q] 0] at hsplit
    have hc : b.Posts.filter (fun p => decide (multiWordRank lower [q] p = 0)) =
        b.Posts.filter (hasSegment lower q) := by
      apply List.filter_congr
      intro p _
      by_cases h : hasSegment lower q p = true
      · rw [h, decide_eq_true ((multiWordRank_single_eq_zero lower q p).2 h)]
      · rw [Bool.not_eq_true] at h
        rw [h, decide_eq_false]
        intro h0
        rw [(multiWordRank_single_eq_zero lower q p).1 h0] at h
        exact Bool.noConfusion h
    rw [hc] at hsplit
    exact hsplit
  · intro p hp
    have h := (List.mem_filter.1 hp).2
    simp only [Bool.not_eq_true', decide_eq_false_iff_not] at h
    rw [← Bool.not_eq_true]
    intro hw
    exact h ((multiWordRank_single_eq_zero lower q p).2 hw)

/-- Lower-casing keeps the number of runes. -/
theorem ToLower_length (lower : Char → Char) (w : String) :
    (ToLower lower w).length = w.length := by
  unfold ToLower
  show (List.map lower w.toList).length = w.toList.length
  exact List.length_map _ _

/-- Splitting depends on the separator test only at the runes of the sequence. -/
theorem splitRunes_congr (sep1 sep2 : Char → Bool) (l : List Char)
    (h : ∀ c ∈ l, sep1 c = sep2 c) : splitRunes sep1 l = splitRunes sep2 l := by
  induction l with
  | nil => rfl
  | cons c cs ih =>
    unfold splitRunes
    rw [h c (List.mem_cons_self c cs), ih (fun x hx => h x (List.mem_cons_of_mem c hx))]

/-- No whitespace-split word is the empty term once lower-cased. -/
theorem hasWord_empty (lower : Char → Char) (p : Post) : hasWord lower "" p = false := by
  rw [← Bool.not_eq_true]
  intro h
  unfold hasWord Fields at h
  rw [List.any_eq_true] at h
  obtain ⟨w, hw, hq⟩ := h
  obtain ⟨v, hv, hvw⟩ := List.mem_map.1 hw
  have hne : v ≠ [] := by
    have := (List.mem_filter.1 hv).2
    intro h0
    rw [h0] at this
    exact Bool.noConfusion this
  have hlen : (ToLower lower w).length = 0 := by
    rw [of_decide_eq_true hq]; rfl
  rw [ToLower_length, ← hvw] at hlen
  exact hne (List.length_eq_zero.1 hlen)

/-- When the only white space of the title is the single space, the title has a term
that is not empty as a word exactly when it has it as a segment. -/
theorem hasWord_eq_hasSegment (lower : Char → Char) (q : String) (p : Post)
    (hs : spacesOnly p.Title) (hq : q ≠ "") :
    hasWord lower q p = hasSegment lower q p := by
  have hsplit : splitRunes IsSpace p.Title.toList =
      splitRunes (fun c => decide (c = ' ')) p.Title.toList := by
    apply splitRunes_congr
    intro c hc
    by_cases h : IsSpace c = true
    · rw [h, hs c hc h]; rfl
    · rw [Bool.not_eq_true] at h
      rw [h]
      symm
      rw [decide_eq_false_iff_not]
      intro h2
      rw [h2] at h
      exact Bool.noConfusion h
  rw [Bool.eq_iff_iff]
  unfold hasWord hasSegment Fields Split
  rw [hsplit, List.any_eq_true, List.any_eq_true]
  constructor
  · rintro ⟨w, hw, hwq⟩
    obtain ⟨v, hv, hvw⟩ := List.mem_map.1 hw
    exact ⟨w, List.mem_map.2 ⟨v, (List.mem_filter.1 hv).1, hvw⟩, hwq⟩
  · rintro ⟨w, hw, hwq⟩
    obtain ⟨v, hv, hvw⟩ := List.mem_map.1 hw
    refine ⟨w, List.mem_map.2 ⟨v, List.mem_filter.2 ⟨hv, ?_⟩, hvw⟩, hwq⟩
    cases v with
    | nil =>
      exfalso
      apply hq
      rw [← of_decide_eq_true hwq, ← hvw]
      rfl
    | cons c cs => rfl

/-- C2 (counterexample): on the board "cat", "dog" tab "cat" and the term "dog", the
second title has the word "dog" and the first has not, yet `FilterBoard` returns "cat"
(rank 3) before "dog" tab "cat" (rank 4): the tab does not separate words for the
rank. -/
theorem FilterBoard_word_not_first :
    (FilterBoard Char.toLower ⟨[⟨1, "cat", "", "", 0⟩, ⟨2, "dog\tcat", "", "", 0⟩]⟩
      ["dog"]).Posts = [⟨1, "cat", "", "", 0⟩, ⟨2, "dog\tcat", "", "", 0⟩] ∧
    hasWord Char.toLower "dog" ⟨2, "dog\tcat", "", "", 0⟩ = true ∧
    hasWord Char.toLower "dog" ⟨1, "cat", "", "", 0⟩ = false ∧
    multiWordRank Char.toLower ["dog"] ⟨1, "cat", "", "", 0⟩ = 3 ∧
    multiWordRank Char.toLower ["dog"] ⟨2, "dog\tcat", "", "", 0⟩ = 4 := by
  decide

/-- C2 (amended): for a single query term `q`, the result of `FilterBoard` starts with
the posts whose title has a segment between single spaces that is `q` once lower-cased,
in their original order, and every post after them has no such segment.  On a board
whose titles have no white space other than the single space, the same holds of the
whitespace-split words of the titles.  With "Happy Dog", "Sad Dog", "Happy Cat" in that
order, the term "dog" yields "Happy Dog", "Sad Dog", "Happy Cat". -/
theorem FilterBoard_exact_word_first (lower : Char → Char) (b : Board) (q : String) :
    (∃ rest : List Post,
      (FilterBoard lower b [q]).Posts = b.Posts.filter (hasSegment lower q) ++ rest ∧
      ∀ p ∈ rest, hasSegment lower q p = false) ∧
    ((∀ p ∈ b.Posts, spacesOnly p.Title) →
      ∃ rest : List Post,
        (FilterBoard lower b [q]).Posts = b.Posts.filter (hasWord lower q) ++ rest ∧
        ∀ p ∈ rest, hasWord lower q p = false) ∧
    (FilterBoard Char.toLower
      ⟨[⟨1, "Happy Dog", "", "", 10⟩, ⟨2, "Sad Dog", "", "", 5⟩, ⟨3, "Happy Cat", "", "", 20⟩]⟩
      ["dog"]).Posts =
      [⟨1, "Happy Dog", "", "", 10⟩, ⟨2, "Sad Dog", "", "", 5⟩, ⟨3, "Happy Cat", "", "", 20⟩] := by
  refine ⟨FilterBoard_segment_first lower b q, ?_, by decide⟩
  intro hs
  by_cases hq : q = ""
  · refine ⟨(FilterBoard lower b [q]).Posts, ?_, ?_⟩
    · have hnil : b.Posts.filter (hasWord lower q) = [] := by
        rw [List.filter_eq_nil_iff]
        intro p _
        rw [hq, hasWord_empty]
        exact Bool.false_ne_true
      rw [hnil, List.nil_append]
    · intro p _
      rw [hq, hasWord_empty]
  · obtain ⟨rest, h1, h2⟩ := FilterBoard_segment_first lower b q
    refine ⟨rest, ?_, ?_⟩
    · rw [h1]
      congr 1
      apply List.filter_congr
      intro p hp
      exact (hasWord_eq_hasSegment lower q p (hs p hp) hq).symm
    · intro p hp
      have hmem : p ∈ b.Posts := by
        apply (FilterBoard_perm lower b [q]).mem_iff.1
        rw [h1]
        exact List.mem_append_right _ hp
      rw [hasWord_eq_hasSegment lower q p (hs p hmem) hq]
      exact h2 p hp

/-- C2 (amended), at the board "Happy Dog", "Sad Dog", "Happy Cat", whose titles have
single spaces only, and the term "dog": the posts with the word "dog" come first. -/
theorem FilterBoard_exact_word_first_witness :
    (∀ p ∈ ([⟨1, "Happy Dog", "", "", 10⟩, ⟨2, "Sad Dog", "", "", 5⟩,
      ⟨3, "Happy Cat", "", "", 20⟩] : List Post), spacesOnly p.Title) ∧
    ∃ rest : List Post,
      (FilterBoard Char.toLower
        ⟨[⟨1, "Happy Dog", "", "", 10⟩, ⟨2, "Sad Dog", "", "", 5⟩,
          ⟨3, "Happy Cat", "", "", 20⟩]⟩ ["dog"]).Posts =
        ([⟨1, "Happy Dog", "", "", 10⟩, ⟨2, "Sad Dog", "", "", 5⟩,
          ⟨3, "Happy Cat", "", "", 20⟩] : List Post).filter (hasWord Char.toLower "dog") ++
          rest ∧
      ∀ p ∈ rest, hasWord Char.toLower "dog" p = false :=
  have hs : ∀ p ∈ ([⟨1, "Happy Dog", "", "", 10⟩, ⟨2, "Sad Dog", "", "", 5⟩,
      ⟨3, "Happy Cat", "", "", 20⟩] : List Post), spacesOnly p.Title := by
    show ∀ p ∈ ([⟨1, "Happy Dog", "", "", 10⟩, ⟨2, "Sad Dog", "", "", 5⟩,
      ⟨3, "Happy Cat", "", "", 20⟩] : List Post),
      ∀ c ∈ p.Title.toList, IsSpace c = true → c = ' '
    decide
  ⟨hs, (FilterBoard_exact_word_first Char.toLower
    ⟨[⟨1, "Happy Dog", "", "", 10⟩, ⟨2, "Sad Dog", "", "", 5⟩, ⟨3, "Happy Cat", "", "", 20⟩]⟩
    "dog").2.1 hs⟩

/-- The distances from the empty term are the rune lengths of the segments. -/
theorem segmentDistances_empty (lower : Char → Char) (title : String) :
    segmentDistances lower "" title = (Split title).map (fun w => (w.length : Int)) := by
  unfold segmentDistances
  apply List.map_congr_left
  intro w _
  rw [LevenshteinDistance_empty, ToLower_length]

/-- C3 (counterexample): the words of the title are not its whitespace-split words.  For
the title "Happy  Dog" (two spaces) and the term "a" the code gives 1, the distance to the
empty segment between the spaces, where the whitespace-split words give 3; for the title
"dog", tab, "cat" and the term "dog" the code gives 4 where the whitespace-split words
give 0. -/
theorem multiWordRank_not_whitespace_split :
    multiWordRank Char.toLower ["a"] ⟨1, "Happy  Dog", "", "", 0⟩ = 1 ∧
    specMultiWordRank Char.toLower ["a"] ⟨1, "Happy  Dog", "", "", 0⟩ = some 3 ∧
    multiWordRank Char.toLower ["dog"] ⟨2, "dog\tcat", "", "", 0⟩ = 4 ∧
    specMultiWordRank Char.toLower ["dog"] ⟨2, "dog\tcat", "", "", 0⟩ = some 0 := by
  decide

/-- C3 (amended): for at most 2^32 query terms, `multiWordRank` is the sum, over the
query terms, of the least of `MaxInt32` and the Levenshtein distances between the term
and each lower-cased segment of the title between single spaces. -/
theorem multiWordRank_eq_sum (lower : Char → Char) (queries : List String) (post : Post)
    (hlen : queries.length ≤ 4294967296) :
    multiWordRank lower queries post =
      (queries.map (fun q => cappedMin MaxInt32 (segmentDistances lower q post.Title))).sum ∧
    ∀ q : String,
      IsLeast {d : Int | d = MaxInt32 ∨ d ∈ segmentDistances lower q post.Title}
        (cappedMin MaxInt32 (segmentDistances lower q post.Title)) := by
  refine ⟨?_, fun q => cappedMin_isLeast _ _⟩
  have hmax : (0 : Int) + (queries.length : Int) * MaxInt32 ≤ MaxInt := by
    have h1 : (queries.length : Int) ≤ 4294967296 := by exact_mod_cast hlen
    have hM : MaxInt32 = 2147483647 := rfl
    have hI : MaxInt = 9223372036854775807 := rfl
    rw [hM, hI]
    omega
  unfold multiWordRank
  rw [multiWordRankLoop_eq lower post queries 0 (le_refl 0) hmax]
  simp

/-- C3 (amended), at the terms "sad" and "dgo" and the title "Sad Dog": the rank is
0 + 2. -/
theorem multiWordRank_eq_sum_witness :
    (["sad", "dgo"] : List String).length ≤ 4294967296 ∧
    multiWordRank Char.toLower ["sad", "dgo"] ⟨2, "Sad Dog", "", "", 5⟩ =
      ((["sad", "dgo"] : List String).map
        (fun q => cappedMin MaxInt32 (segmentDistances Char.toLower q "Sad Dog"))).sum :=
  ⟨by decide, (multiWordRank_eq_sum Char.toLower ["sad", "dgo"] ⟨2, "Sad Dog", "", "", 5⟩
    (by decide)).1⟩

/-- C4 (counterexample): for the query list holding one empty string the rank of
"Happy Dog" is 3, the length of "dog", and `FilterBoard` moves "A Cat" (rank 1) before
"Happy Dog". -/
theorem multiWordRank_empty_string_nonzero :
    multiWordRank Char.toLower [""] ⟨1, "Happy Dog", "", "", 10⟩ = 3 ∧
    (FilterBoard Char.toLower
      ⟨[⟨1, "Happy Dog", "", "", 10⟩, ⟨2, "A Cat", "", "", 5⟩]⟩ [""]).Posts =
      [⟨2, "A Cat", "", "", 5⟩, ⟨1, "Happy Dog", "", "", 10⟩] := by
  decide

/-- C4 (amended): for the empty list of query terms the rank of every post is 0 and
`FilterBoard` keeps the original order.  For the list holding one empty string the rank
is the least of `MaxInt32` and the rune lengths of the segments of the title between
single spaces; it is 0 exactly when the title has an empty segment. -/
theorem multiWordRank_empty_query (lower : Char → Char) (b : Board) (p : Post) :
    multiWordRank lower [] p = 0 ∧
    (FilterBoard lower b []).Posts = b.Posts ∧
    IsLeast {d : Int | d = MaxInt32 ∨ ∃ w ∈ Split p.Title, d = (w.length : Int)}
      (multiWordRank lower [""] p) ∧
    (multiWordRank lower [""] p = 0 ↔ "" ∈ Split p.Title) := by
  refine ⟨rfl, ?_, ?_, ?_⟩
  · have h := FilterBoard_rank_class lower b [] 0
    have hall : ∀ l : List Post,
        l.filter (fun p => decide (multiWordRank lower [] p = 0)) = l := by
      intro l
      rw [List.filter_eq_self]
      intro x _
      exact decide_eq_true rfl
    rw [hall, hall] at h
    exact h
  · rw [multiWordRank_single, segmentDistances_empty]
    have h := cappedMin_isLeast MaxInt32 ((Split p.Title).map (fun w => (w.length : Int)))
    have hset : {d : Int | d = MaxInt32 ∨ ∃ w ∈ Split p.Title, d = (w.length : Int)} =
        {d : Int | d = MaxInt32 ∨ d ∈ (Split p.Title).map (fun w => (w.length : Int))} := by
      ext d
      simp only [Set.mem_setOf_eq, List.mem_map]
      constructor
      · rintro (h | ⟨w, hw, h⟩)
        · exact Or.inl h
        · exact Or.inr ⟨w, hw, h.symm⟩
      · rintro (h | ⟨w, hw, h⟩)
        · exact Or.inl h
        · exact Or.inr ⟨w, hw, h.symm⟩
    rw [hset]
    exact h
  · rw [multiWordRank_single, cappedMin_eq_zero]
    constructor
    · rintro ⟨w, hw, h⟩
      have hlen : w.length = 0 := by rw [← ToLower_length lower w, h]; rfl
      have hw0 : w = "" := String.ext (List.length_eq_zero.1 hlen)
      rw [← hw0]; exact hw
    · intro h
      exact ⟨"", h, rfl⟩

/-! ## LimitBoard -/

/-- When the end index does not overflow, `LimitBoard` keeps `m` posts after dropping
`o` posts. -/
theorem LimitBoard_eq_window (b : Board) (o m : Nat)
    (hsum : min (o : Int) (b.Posts.length : Int) + (m : Int) ≤ MaxInt) :
    LimitBoard b (o : Int) (m : Int) = some ⟨(b.Posts.drop o).take m⟩ := by
  have hI : MaxInt = 9223372036854775807 := rfl
  have hN : MinInt = -9223372036854775808 := rfl
  unfold LimitBoard
  by_cases hgt : (o : Int) > (b.Posts.length : Int)
  · have hlt : b.Posts.length < o := by exact_mod_cast hgt
    rw [min_eq_right (le_of_lt hgt)] at hsum
    simp only [hgt, if_true]
    rw [wrapInt_of_range _ (by omega) (by omega)]
    have hc : (0 : Int) ≤ (b.Posts.length : Int) ∧ (b.Posts.length : Int) ≤
        (if (b.Posts.length : Int) + (m : Int) > (b.Posts.length : Int)
          then (b.Posts.length : Int) else (b.Posts.length : Int) + (m : Int)) := by
      split <;> omega
    rw [if_pos hc]
    simp only [Int.toNat_ofNat]
    rw [List.drop_of_length_le (le_refl _), List.drop_of_length_le (le_of_lt hlt)]
    simp
  · have hle : o ≤ b.Posts.length := by
      have : (o : Int) ≤ (b.Posts.length : Int) := not_lt.1 hgt
      exact_mod_cast this
    rw [min_eq_left (not_lt.1 hgt)] at hsum
    simp only [hgt, if_false]
    rw [wrapInt_of_range _ (by omega) (by omega)]
    by_cases hend : (o : Int) + (m : Int) > (b.Posts.length : Int)
    · have hend2 : b.Posts.length < o + m := by exact_mod_cast hend
      simp only [hend, if_true]
      have hc : (0 : Int) ≤ (o : Int) ∧ (o : Int) ≤ (b.Posts.length : Int) := by omega
      rw [if_pos hc]
      have h1 : ((b.Posts.length : Int) - (o : Int)).toNat = b.Posts.length - o := by omega
      simp only [Int.toNat_ofNat, h1]
      rw [List.take_of_length_le (by rw [List.length_drop]),
        List.take_of_length_le (by rw [List.length_drop]; omega)]
    · simp only [hend, if_false]
      have hc : (0 : Int) ≤ (o : Int) ∧ (o : Int) ≤ (o : Int) + (m : Int) := by omega
      rw [if_pos hc]
      have h1 : ((o : Int) + (m : Int) - (o : Int)).toNat = m := by omega
      simp only [Int.toNat_ofNat, h1]

/-- C5 (counterexample): on a board of one post, `LimitBoard(1, MaxInt)` does not give
the empty window: `1 + MaxInt` wraps around to a negative end index and the slice
expression panics. -/
theorem LimitBoard_overflow_panics :
    LimitBoard ⟨[⟨1, "Happy Dog", "", "", 10⟩]⟩ 1 9223372036854775807 = none := by
  decide

/-- C5 (amended): for `offset ≥ 0` and `maxResults ≥ 0` such that
`min(offset, n) + maxResults` does not exceed the largest `int`, `LimitBoard` replaces the
sequence by `maxResults` elements taken after dropping `offset` elements, that is by the
elements at the indices from `min(offset, n)` up to `min(offset + maxResults, n)`; an
offset beyond the length gives the empty sequence and offset 0 with `maxResults` beyond
the length leaves the sequence unchanged. -/
theorem LimitBoard_window (b : Board) (offset maxResults : Int) (ho : 0 ≤ offset)
    (hm : 0 ≤ maxResults)
    (hsum : min offset (b.Posts.length : Int) + maxResults ≤ MaxInt) :
    LimitBoard b offset maxResults =
      some ⟨(b.Posts.drop offset.toNat).take maxResults.toNat⟩ ∧
    ((b.Posts.drop offset.toNat).take maxResults.toNat).length =
      min (offset.toNat + maxResults.toNat) b.Posts.length - min offset.toNat b.Posts.length ∧
    ((b.Posts.length : Int) < offset → LimitBoard b offset maxResults = some ⟨[]⟩) ∧
    (offset = 0 → (b.Posts.length : Int) < maxResults →
      LimitBoard b offset maxResults = some b) := by
  obtain ⟨o, rfl⟩ := Int.eq_ofNat_of_zero_le ho
  obtain ⟨m, rfl⟩ := Int.eq_ofNat_of_zero_le hm
  have hI : MaxInt = 9223372036854775807 := rfl
  have hN : MinInt = -9223372036854775808 := rfl
  simp only [Int.toNat_ofNat]
  have key : LimitBoard b (o : Int) (m : Int) = some ⟨(b.Posts.drop o).take m⟩ :=
    LimitBoard_eq_window b o m hsum
  refine ⟨key, ?_, ?_, ?_⟩
  · rw [List.length_take, List.length_drop]
    omega
  · intro hlt
    have hlt2 : b.Posts.length < o := by exact_mod_cast hlt
    rw [key, List.drop_of_length_le (le_of_lt hlt2)]
    simp
  · intro h0 hlt
    have h0n : o = 0 := by exact_mod_cast h0
    have hlt2 : b.Posts.length < m := by exact_mod_cast hlt
    rw [key, h0n, List.drop_zero, List.take_of_length_le (le_of_lt hlt2)]

/-- C5 (amended), at a board of three posts, offset 1 and `maxResults` 1: the window is
the second post. -/
theorem LimitBoard_window_witness :
    LimitBoard ⟨[⟨1, "Happy Dog", "", "", 10⟩, ⟨2, "Sad Dog", "", "", 5⟩,
        ⟨3, "Happy Cat", "", "", 20⟩]⟩ 1 1 =
      some ⟨(([⟨1, "Happy Dog", "", "", 10⟩, ⟨2, "Sad Dog", "", "", 5⟩,
        ⟨3, "Happy Cat", "", "", 20⟩] : List Post).drop (1 : Int).toNat).take (1 : Int).toNat⟩ :=
  (LimitBoard_window ⟨[⟨1, "Happy Dog", "", "", 10⟩, ⟨2, "Sad Dog", "", "", 5⟩,
    ⟨3, "Happy Cat", "", "", 20⟩]⟩ 1 1 (by decide) (by decide) (by decide)).1

/-- C6 (the code at the failing input): with offset -1, which `searchHandler` passes on
from the query string `offset=-1`, and `maxResults` 20, `LimitBoard` panics on every
board: the offset is not raised to 0 before the slice expression. -/
theorem LimitBoard_negative_offset_panics (b : Board) : LimitBoard b (-1) 20 = none := by
  unfold LimitBoard
  have h : ¬ ((-1 : Int) > (b.Posts.length : Int)) := by omega
  simp only [h, if_false]
  rw [if_neg]
  intro hc
  exact absurd hc.1 (by decide)

/-! ## SortPostsByLikes -/

/-- The result of `sort.Slice` is a rearrangement of its input. -/
theorem Slice_perm {α : Type} (tie : Reorder α) (less : α → α → Bool) (xs : List α) :
    (Slice tie less xs).Perm xs :=
  (SliceStable_perm less (tie.apply xs)).trans (tie.perm xs)

/-- After `SortPostsByLikes` a post never has fewer likes than a later post. -/
theorem SortPostsByLikes_pairwise (tie : Reorder Post) (b : Board) :
    (SortPostsByLikes tie b).Posts.Pairwise (fun p q => q.Likes ≤ p.Likes) := by
  have hless : ∀ x y : Post, decide (x.Likes > y.Likes) = true ↔ -x.Likes < -y.Likes := by
    intro x y
    rw [decide_eq_true_eq]
    constructor <;> intro h <;> omega
  have h := SliceStable_sorted (fun x y : Post => decide (x.Likes > y.Likes))
    (fun p => -p.Likes) hless (tie.apply b.Posts)
  exact List.Pairwise.imp (fun {p q} hpq => by omega) h

/-- C7: after `SortPostsByLikes`, every adjacent pair of posts, at the indices `i` and
`i + 1`, satisfies `Likes[i] ≥ Likes[i+1]`. -/
theorem SortPostsByLikes_descending (tie : Reorder Post) (b : Board) (i : Nat) (p q : Post)
    (hp : (SortPostsByLikes tie b).Posts[i]? = some p)
    (hq : (SortPostsByLikes tie b).Posts[i + 1]? = some q) :
    p.Likes ≥ q.Likes := by
  have hpw := SortPostsByLikes_pairwise tie b
  rw [List.pairwise_iff_getElem] at hpw
  obtain ⟨hi, hpi⟩ := List.getElem?_eq_some_iff.1 hp
  obtain ⟨hj, hqj⟩ := List.getElem?_eq_some_iff.1 hq
  have h := hpw i (i + 1) hi hj (Nat.lt_succ_self i)
  rw [hpi, hqj] at h
  exact h

/-- C7, at the board with likes 5, 20, 10: the first two posts after the sort have 20 and
10 likes. -/
theorem SortPostsByLikes_descending_witness :
    (SortPostsByLikes (Reorder.same Post)
      ⟨[⟨2, "Sad Dog", "", "", 5⟩, ⟨3, "Happy Cat", "", "", 20⟩,
        ⟨1, "Happy Dog", "", "", 10⟩]⟩).Posts[0]? = some ⟨3, "Happy Cat", "", "", 20⟩ ∧
    (SortPostsByLikes (Reorder.same Post)
      ⟨[⟨2, "Sad Dog", "", "", 5⟩, ⟨3, "Happy Cat", "", "", 20⟩,
        ⟨1, "Happy Dog", "", "", 10⟩]⟩).Posts[0 + 1]? = some ⟨1, "Happy Dog", "", "", 10⟩ ∧
    (⟨3, "Happy Cat", "", "", 20⟩ : Post).Likes ≥ (⟨1, "Happy Dog", "", "", 10⟩ : Post).Likes :=
  ⟨by decide, by decide,
    SortPostsByLikes_descending (Reorder.same Post)
      ⟨[⟨2, "Sad Dog", "", "", 5⟩, ⟨3, "Happy Cat", "", "", 20⟩, ⟨1, "Happy Dog", "", "", 10⟩]⟩
      0 ⟨3, "Happy Cat", "", "", 20⟩ ⟨1, "Happy Dog", "", "", 10⟩ (by decide) (by decide)⟩

/-! ## AddPost -/

/-- The scan of `AddPost` finds a title exactly when a post of the sequence has it. -/
theorem titlePresent_iff (title : String) (posts : List Post) :
    titlePresent title posts = true ↔ ∃ q ∈ posts, q.Title = title := by
  induction posts with
  | nil => simp [titlePresent]
  | cons q rest ih =>
    unfold titlePresent
    by_cases h : q.Title = title
    · simp [h]
    · simp [h, ih]

/-- C8: `AddPost(p)` leaves the sequence unchanged exactly when a post of the board has
the title of `p`, as the same string; otherwise the new sequence is the old one with `p`
appended.  A post with the ID of a post of the board and another title, be it only in
the case of a letter, is appended. -/
theorem AddPost_unchanged_iff (b : Board) (p : Post) :
    ((AddPost b p).Posts = b.Posts ↔ ∃ q ∈ b.Posts, q.Title = p.Title) ∧
    ((AddPost b p).Posts = b.Posts ∨ (AddPost b p).Posts = b.Posts ++ [p]) ∧
    (AddPost ⟨[⟨1, "Happy Dog", "", "", 10⟩]⟩ ⟨1, "happy dog", "", "", 10⟩).Posts =
      [⟨1, "Happy Dog", "", "", 10⟩, ⟨1, "happy dog", "", "", 10⟩] := by
  have hne : b.Posts ++ [p] ≠ b.Posts := by
    intro h
    have := congrArg List.length h
    simp at this
  refine ⟨?_, ?_, by decide⟩
  · unfold AddPost
    by_cases h : titlePresent p.Title b.Posts = true
    · rw [if_pos h]
      exact ⟨fun _ => (titlePresent_iff _ _).1 h, fun _ => rfl⟩
    · rw [if_neg h]
      constructor
      · intro h2; exact absurd h2 hne
      · intro h2; exact absurd ((titlePresent_iff _ _).2 h2) h
  · unfold AddPost
    by_cases h : titlePresent p.Title b.Posts = true
    · rw [if_pos h]; exact Or.inl rfl
    · rw [if_neg h]; exact Or.inr rfl

/-- C9: when `p` and `p'` have the same title, `AddPost(p)` followed by `AddPost(p')`
gives the same sequence, of the same length, as `AddPost(p)` alone. -/
theorem AddPost_same_title_twice (b : Board) (p p' : Post) (h : p.Title = p'.Title) :
    AddPost (AddPost b p) p' = AddPost b p ∧
    (AddPost (AddPost b p) p').Posts.length = (AddPost b p).Posts.length := by
  have hpres : titlePresent p'.Title (AddPost b p).Posts = true := by
    rw [titlePresent_iff]
    unfold AddPost
    by_cases hb : titlePresent p.Title b.Posts = true
    · rw [if_pos hb]
      obtain ⟨q, hq, hqt⟩ := (titlePresent_iff _ _).1 hb
      exact ⟨q, hq, hqt.trans h⟩
    · rw [if_neg hb]
      exact ⟨p, by simp, h⟩
  have heq : AddPost (AddPost b p) p' = AddPost b p := by
    show (if titlePresent p'.Title (AddPost b p).Posts then AddPost b p else _) = _
    rw [if_pos hpres]
  exact ⟨heq, by rw [heq]⟩

/-- C9, at the board holding "Sad Dog" and two posts titled "Happy Dog" that differ in
every other field. -/
theorem AddPost_same_title_twice_witness :
    (⟨1, "Happy Dog", "u", "i", 10⟩ : Post).Title = (⟨7, "Happy Dog", "v", "j", 3⟩ : Post).Title ∧
    AddPost (AddPost ⟨[⟨2, "Sad Dog", "", "", 5⟩]⟩ ⟨1, "Happy Dog", "u", "i", 10⟩)
        ⟨7, "Happy Dog", "v", "j", 3⟩ =
      AddPost ⟨[⟨2, "Sad Dog", "", "", 5⟩]⟩ ⟨1, "Happy Dog", "u", "i", 10⟩ :=
  ⟨rfl, (AddPost_same_title_twice ⟨[⟨2, "Sad Dog", "", "", 5⟩]⟩ ⟨1, "Happy Dog", "u", "i", 10⟩
    ⟨7, "Happy Dog", "v", "j", 3⟩ rfl).1⟩

/-! ## Keywords -/

/-- The keys of the map after `words[word]++`: a new key is added at the end. -/
theorem mapIncr_keys (word : String) (m : List (String × Int)) :
    (mapIncr word m).map Prod.fst =
      if word ∈ m.map Prod.fst then m.map Prod.fst else m.map Prod.fst ++ [word] := by
  induction m with
  | nil => simp [mapIncr]
  | cons kv rest ih =>
    obtain ⟨k, v⟩ := kv
    unfold mapIncr
    by_cases hk : k = word
    · simp [hk]
    · have hk2 : ¬ word = k := fun h => hk h.symm
      rw [if_neg hk, List.map_cons, ih]
      by_cases hw : word ∈ rest.map Prod.fst
      · simp [hw]
      · simp [hw, hk2]

/-- The counting loop over the fields of one title is a fold of `words[word]++` over the
lower-cased fields that are not stopwords. -/
theorem countFields_eq (lower : Char → Char) (stopwords : List String) (fields : List String)
    (m : List (String × Int)) :
    fields.foldl
        (fun words word =>
          let word := ToLower lower word
          if word ∈ stopwords then words else mapIncr word words) m =
      ((fields.map (ToLower lower)).filter (fun w => !decide (w ∈ stopwords))).foldl
        (fun words w => mapIncr w words) m := by
  induction fields generalizing m with
  | nil => rfl
  | cons f fs ih =>
    rw [List.foldl_cons, List.map_cons]
    by_cases hs : ToLower lower f ∈ stopwords
    · rw [List.filter_cons_of_neg (by simpa using hs)]
      simp only [hs, if_true]
      exact ih m
    · rw [List.filter_cons_of_pos (by simpa using hs), List.foldl_cons]
      simp only [hs, if_false]
      exact ih _

/-- The counting loops of `Keywords` are a fold of `words[word]++` over the tokens. -/
theorem countWords_eq (lower : Char → Char) (stopwords : List String) (posts : List Post) :
    countWords lower stopwords posts =
      (keywordTokens lower stopwords posts).foldl (fun words w => mapIncr w words) [] := by
  unfold countWords keywordTokens
  generalize ([] : List (String × Int)) = m
  induction posts generalizing m with
  | nil => rfl
  | cons p ps ih =>
    rw [List.foldl_cons, List.flatMap_cons, List.filter_append, List.foldl_append,
      countFields_eq]
    exact ih _

/-- Folding `words[word]++` keeps the keys distinct and adds exactly the tokens. -/
theorem foldl_mapIncr_keys (tokens : List String) (m : List (String × Int))
    (hm : (m.map Prod.fst).Nodup) :
    ((tokens.foldl (fun words w => mapIncr w words) m).map Prod.fst).Nodup ∧
    ∀ w, w ∈ (tokens.foldl (fun words w => mapIncr w words) m).map Prod.fst ↔
      w ∈ m.map Prod.fst ∨ w ∈ tokens := by
  induction tokens generalizing m with
  | nil => exact ⟨hm, fun w => by simp⟩
  | cons t ts ih =>
    rw [List.foldl_cons]
    have hnd : ((mapIncr t m).map Prod.fst).Nodup := by
      rw [mapIncr_keys]
      by_cases ht : t ∈ m.map Prod.fst
      · rw [if_pos ht]; exact hm
      · rw [if_neg ht]
        rw [List.nodup_append]
        refine ⟨hm, List.nodup_singleton t, ?_⟩
        intro x hx hx2
        rw [List.mem_singleton] at hx2
        rw [hx2] at hx
        exact ht hx
    obtain ⟨h1, h2⟩ := ih (mapIncr t m) hnd
    refine ⟨h1, ?_⟩
    intro w
    rw [h2 w, mapIncr_keys]
    by_cases ht : t ∈ m.map Prod.fst
    · rw [if_pos ht]
      constructor
      · rintro (h | h)
        · exact Or.inl h
        · exact Or.inr (List.mem_cons_of_mem t h)
      · rintro (h | h)
        · exact Or.inl h
        · rcases List.mem_cons.1 h with h3 | h3
          · rw [h3]; exact Or.inl ht
          · exact Or.inr h3
    · rw [if_neg ht]
      simp only [List.mem_append, List.mem_singleton, List.mem_cons]
      tauto

/-- The map of `Keywords` has one entry for each distinct token. -/
theorem countWords_keys (lower : Char → Char) (stopwords : List String) (posts : List Post) :
    ((countWords lower stopwords posts).map Prod.fst).Nodup ∧
    ((countWords lower stopwords posts).map Prod.fst).Perm
      (keywordTokens lower stopwords posts).dedup := by
  rw [countWords_eq]
  obtain ⟨h1, h2⟩ := foldl_mapIncr_keys (keywordTokens lower stopwords posts) []
    List.nodup_nil
  refine ⟨h1, ?_⟩
  rw [List.perm_ext_iff_of_nodup h1 (List.nodup_dedup _)]
  intro w
  rw [h2 w, List.mem_dedup]
  simp

/-- Adding the posts of entries with distinct keys, none of them a title of the board,
appends all of them. -/
theorem foldl_AddPost_eq (l : List (String × Int)) (b0 : Board)
    (hnd : (l.map Prod.fst).Nodup)
    (hdis : ∀ q ∈ b0.Posts, q.Title ∉ l.map Prod.fst) :
    (l.foldl (fun board wc => AddPost board (wordPost wc)) b0).Posts =
      b0.Posts ++ l.map wordPost := by
  induction l generalizing b0 with
  | nil => simp
  | cons wc rest ih =>
    rw [List.map_cons, List.nodup_cons] at hnd
    have hnot : ¬ titlePresent (wordPost wc).Title b0.Posts = true := by
      rw [titlePresent_iff]
      rintro ⟨q, hq, hqt⟩
      apply hdis q hq
      rw [hqt]
      exact List.mem_cons_self _ _
    have hadd : AddPost b0 (wordPost wc) = ⟨b0.Posts ++ [wordPost wc]⟩ := by
      unfold AddPost
      rw [if_neg hnot]
    rw [List.foldl_cons, hadd, ih _ hnd.2]
    · simp
    · intro q hq
      rcases List.mem_append.1 hq with h | h
      · intro hmem
        exact hdis q h (List.mem_cons_of_mem _ hmem)
      · rw [List.mem_singleton] at h
        rw [h]
        exact hnd.1

/-- The last loop of `Keywords` collects the titles of the first posts until `count` is
`MaxKeywords`. -/
theorem collectKeywords_eq (posts : List Post) (count : Int) (keywords : List String)
    (h0 : 0 ≤ count) (h1 : count < MaxKeywords) :
    collectKeywords posts count keywords =
      keywords ++ (posts.take (MaxKeywords - count).toNat).map Post.Title := by
  have hM : MaxKeywords = 20 := rfl
  rw [hM] at h1 ⊢
  induction posts generalizing count keywords with
  | nil => simp [collectKeywords]
  | cons p ps ih =>
    unfold collectKeywords
    rw [hM]
    obtain ⟨n, hn⟩ : ∃ n : Nat, (20 - count).toNat = n + 1 := ⟨(20 - count).toNat - 1, by omega⟩
    rw [hn, List.take_succ_cons, List.map_cons]
    by_cases hc : count + 1 ≥ 20
    · simp only [hc, if_true]
      have hn0 : n = 0 := by omega
      rw [hn0]
      simp
    · simp only [hc, if_false]
      rw [ih (count + 1) _ (by omega) (by omega)]
      have hn1 : (20 - (count + 1)).toNat = n := by omega
      rw [hn1]
      simp

/-- The keywords are the titles of the first `MaxKeywords` posts of the sorted board of
word posts. -/
theorem Keywords_eq (lower : Char → Char) (stopwords : List String)
    (iter : Reorder (String × Int)) (tie : Reorder Post) (b : Board) :
    Keywords lower stopwords iter tie b =
      ((SortPostsByLikes tie
        ⟨(iter.apply (countWords lower stopwords b.Posts)).map wordPost⟩).Posts.take 20).map
        Post.Title := by
  have hnd : ((iter.apply (countWords lower stopwords b.Posts)).map Prod.fst).Nodup :=
    (((iter.perm _).map Prod.fst).nodup_iff).2 (countWords_keys lower stopwords b.Posts).1
  have hb := foldl_AddPost_eq (iter.apply (countWords lower stopwords b.Posts)) (NewBoard [])
    hnd (fun q hq => absurd hq (List.not_mem_nil q))
  unfold Keywords
  dsimp only
  have hboard : (iter.apply (countWords lower stopwords b.Posts)).foldl
      (fun board wc => AddPost board (wordPost wc)) (NewBoard []) =
      ⟨(iter.apply (countWords lower stopwords b.Posts)).map wordPost⟩ := by
    have : ∀ x y : Board, x.Posts = y.Posts → x = y := by
      intro x y h; cases x; cases y; simpa using h
    apply this
    rw [hb]
    rfl
  rw [hboard, collectKeywords_eq _ 0 [] (le_refl 0) (by decide)]
  rfl

/-- C10: `Keywords` returns at most `MaxKeywords` = 20 entries, and exactly `min(20, d)`
entries, where `d` is the number of distinct lower-cased tokens of the titles that are
not stopwords. -/
theorem Keywords_length (lower : Char → Char) (stopwords : List String)
    (iter : Reorder (String × Int)) (tie : Reorder Post) (b : Board) :
    ((Keywords lower stopwords iter tie b).length : Int) ≤ MaxKeywords ∧
    (Keywords lower stopwords iter tie b).length =
      min 20 (keywordTokens lower stopwords b.Posts).dedup.length := by
  have hlen : (Keywords lower stopwords iter tie b).length =
      min 20 (keywordTokens lower stopwords b.Posts).dedup.length := by
    rw [Keywords_eq, List.length_map, List.length_take]
    have h1 : (SortPostsByLikes tie
        ⟨(iter.apply (countWords lower stopwords b.Posts)).map wordPost⟩).Posts.length =
        ((iter.apply (countWords lower stopwords b.Posts)).map wordPost).length :=
      (Slice_perm tie _ _).length_eq
    rw [h1, List.length_map, (iter.perm _).length_eq,
      ← (countWords_keys lower stopwords b.Posts).2.length_eq, List.length_map]
  refine ⟨?_, hlen⟩
  rw [hlen]
  have hM : MaxKeywords = 20 := rfl
  rw [hM]
  omega

/-- The value of a key after `words[word]++`. -/
theorem mapGet_mapIncr (w t : String) (m : List (String × Int)) :
    mapGet w (mapIncr t m) = mapGet w m + if t = w then 1 else 0 := by
  induction m with
  | nil =>
    by_cases h : t = w
    · simp [mapIncr, mapGet, h]
    · simp [mapIncr, mapGet, h]
  | cons kv rest ih =>
    obtain ⟨k, v⟩ := kv
    unfold mapIncr
    by_cases hk : k = t
    · rw [if_pos hk]
      by_cases hw : t = w
      · simp [mapGet, hk, hw]
      · simp [mapGet, hk, hw]
    · rw [if_neg hk]
      by_cases hkw : k = w
      · have htw : ¬ t = w := fun h => hk (hkw.trans h.symm)
        simp [mapGet, hkw, htw]
      · simp only [mapGet, if_neg hkw]
        exact ih

/-- The value of a key after the counting loop is its old value plus the number of its
occurrences among the tokens. -/
theorem mapGet_foldl_mapIncr (w : String) (tokens : List String) (m : List (String × Int)) :
    mapGet w (tokens.foldl (fun words t => mapIncr t words) m) =
      mapGet w m + ((tokens.count w : Nat) : Int) := by
  induction tokens generalizing m with
  | nil => simp
  | cons t ts ih =>
    rw [List.foldl_cons, ih, mapGet_mapIncr, List.count_cons]
    by_cases h : t = w
    · simp [h]; ring
    · simp [h]

/-- In a map with distinct keys an entry holds the value of its key. -/
theorem mapGet_of_mem (m : List (String × Int)) (hnd : (m.map Prod.fst).Nodup)
    (wc : String × Int) (h : wc ∈ m) : mapGet wc.1 m = wc.2 := by
  induction m with
  | nil => exact absurd h (List.not_mem_nil wc)
  | cons kv rest ih =>
    obtain ⟨k, v⟩ := kv
    rw [List.map_cons, List.nodup_cons] at hnd
    rcases List.mem_cons.1 h with h1 | h1
    · rw [h1]; simp [mapGet]
    · have hne : ¬ k = wc.1 := by
        intro hk
        apply hnd.1
        rw [hk]
        exact List.mem_map.2 ⟨wc, h1, rfl⟩
      simp only [mapGet, if_neg hne]
      exact ih hnd.2 h1

/-- Every entry of the map of `Keywords` holds a token and the number of its
occurrences. -/
theorem countWords_entry (lower : Char → Char) (stopwords : List String) (posts : List Post)
    (wc : String × Int) (h : wc ∈ countWords lower stopwords posts) :
    wc.1 ∈ keywordTokens lower stopwords posts ∧
      wc.2 = occurrences lower stopwords posts wc.1 := by
  obtain ⟨hnd, hperm⟩ := countWords_keys lower stopwords posts
  refine ⟨?_, ?_⟩
  · have h1 : wc.1 ∈ (countWords lower stopwords posts).map Prod.fst :=
      List.mem_map.2 ⟨wc, h, rfl⟩
    exact List.mem_dedup.1 (hperm.mem_iff.1 h1)
  · rw [← mapGet_of_mem _ hnd wc h, countWords_eq, mapGet_foldl_mapIncr]
    unfold occurrences
    simp [mapGet]

/-- The posts of the board that `Keywords` sorts are the posts of the entries of the
map. -/
theorem keywordBoard_mem (lower : Char → Char) (stopwords : List String)
    (iter : Reorder (String × Int)) (tie : Reorder Post) (b : Board) (p : Post) :
    p ∈ (SortPostsByLikes tie
        ⟨(iter.apply (countWords lower stopwords b.Posts)).map wordPost⟩).Posts ↔
      ∃ wc ∈ countWords lower stopwords b.Posts, wordPost wc = p := by
  have hperm : (SortPostsByLikes tie
      ⟨(iter.apply (countWords lower stopwords b.Posts)).map wordPost⟩).Posts.Perm
      ((iter.apply (countWords lower stopwords b.Posts)).map wordPost) :=
    Slice_perm tie _ _
  rw [hperm.mem_iff, List.mem_map]
  constructor
  · rintro ⟨wc, hwc, h⟩; exact ⟨wc, (iter.perm _).mem_iff.1 hwc, h⟩
  · rintro ⟨wc, hwc, h⟩; exact ⟨wc, (iter.perm _).mem_iff.2 hwc, h⟩

/-- Every keyword is a token. -/
theorem Keywords_subset_tokens (lower : Char → Char) (stopwords : List String)
    (iter : Reorder (String × Int)) (tie : Reorder Post) (b : Board) (k : String)
    (hk : k ∈ Keywords lower stopwords iter tie b) :
    k ∈ keywordTokens lower stopwords b.Posts := by
  rw [Keywords_eq, List.mem_map] at hk
  obtain ⟨p, hp, hpk⟩ := hk
  obtain ⟨wc, hwc, hw⟩ := (keywordBoard_mem lower stopwords iter tie b p).1
    (List.mem_of_mem_take hp)
  have h := (countWords_entry lower stopwords b.Posts wc hwc).1
  rw [← hpk, ← hw]
  exact h

/-- C11: no entry returned by `Keywords` is a stopword, and every entry is the
lower-cased form of a whitespace-delimited token of the title of some post. -/
theorem Keywords_entries (lower : Char → Char) (stopwords : List String)
    (iter : Reorder (String × Int)) (tie : Reorder Post) (b : Board) (k : String)
    (hk : k ∈ Keywords lower stopwords iter tie b) :
    k ∉ stopwords ∧ ∃ p ∈ b.Posts, ∃ t ∈ Fields p.Title, k = ToLower lower t := by
  have h := Keywords_subset_tokens lower stopwords iter tie b k hk
  unfold keywordTokens at h
  rw [List.mem_filter, List.mem_flatMap] at h
  obtain ⟨⟨p, hp, hmem⟩, hstop⟩ := h
  obtain ⟨t, ht, htk⟩ := List.mem_map.1 hmem
  refine ⟨by simpa using hstop, p, hp, t, ht, htk.symm⟩

/-- C11, at the board "Happy Dog", "Sad Dog", "Happy Cat" with the stopword "sad": the
keyword "dog" is not a stopword and is the lower-cased token "Dog" of "Happy Dog". -/
theorem Keywords_entries_witness :
    "dog" ∈ Keywords Char.toLower ["sad"] (Reorder.same (String × Int)) (Reorder.rev Post)
      ⟨[⟨1, "Happy Dog", "", "", 10⟩, ⟨2, "Sad Dog", "", "", 5⟩,
        ⟨3, "Happy Cat", "", "", 20⟩]⟩ ∧
    ("dog" ∉ ["sad"] ∧
      ∃ p ∈ ([⟨1, "Happy Dog", "", "", 10⟩, ⟨2, "Sad Dog", "", "", 5⟩,
        ⟨3, "Happy Cat", "", "", 20⟩] : List Post),
        ∃ t ∈ Fields p.Title, "dog" = ToLower Char.toLower t) :=
  ⟨by decide,
    Keywords_entries Char.toLower ["sad"] (Reorder.same (String × Int)) (Reorder.rev Post)
      ⟨[⟨1, "Happy Dog", "", "", 10⟩, ⟨2, "Sad Dog", "", "", 5⟩, ⟨3, "Happy Cat", "", "", 20⟩]⟩
      "dog" (by decide)⟩

/-- On the board that `Keywords` sorts, the likes of a post are the occurrences of its
title. -/
theorem keywordBoard_likes (lower : Char → Char) (stopwords : List String)
    (iter : Reorder (String × Int)) (tie : Reorder Post) (b : Board) (p : Post)
    (hp : p ∈ (SortPostsByLikes tie
        ⟨(iter.apply (countWords lower stopwords b.Posts)).map wordPost⟩).Posts) :
    p.Likes = occurrences lower stopwords b.Posts p.Title := by
  obtain ⟨wc, hwc, hw⟩ := (keywordBoard_mem lower stopwords iter tie b p).1 hp
  rw [← hw]
  exact (countWords_entry lower stopwords b.Posts wc hwc).2

/-- The titles of the board that `Keywords` sorts are the distinct tokens, each once, in
non-increasing order of their occurrences, and the keywords are the first 20 of them. -/
theorem Keywords_ranking (lower : Char → Char) (stopwords : List String)
    (iter : Reorder (String × Int)) (tie : Reorder Post) (b : Board) :
    ∃ ranking : List String,
      ranking.Perm (keywordTokens lower stopwords b.Posts).dedup ∧
      ranking.Pairwise (fun a c => occurrences lower stopwords b.Posts c ≤
        occurrences lower stopwords b.Posts a) ∧
      Keywords lower stopwords iter tie b = ranking.take 20 := by
  refine ⟨(SortPostsByLikes tie
    ⟨(iter.apply (countWords lower stopwords b.Posts)).map wordPost⟩).Posts.map Post.Title,
    ?_, ?_, ?_⟩
  · have h1 : (SortPostsByLikes tie
        ⟨(iter.apply (countWords lower stopwords b.Posts)).map wordPost⟩).Posts.Perm
        ((iter.apply (countWords lower stopwords b.Posts)).map wordPost) :=
      Slice_perm tie _ _
    have h2 := h1.map Post.Title
    rw [List.map_map] at h2
    have h3 : (Post.Title ∘ wordPost) = (Prod.fst : String × Int → String) := rfl
    rw [h3] at h2
    exact h2.trans (((iter.perm _).map Prod.fst).trans
      (countWords_keys lower stopwords b.Posts).2)
  · rw [List.pairwise_map]
    have hpw := SortPostsByLikes_pairwise tie
      ⟨(iter.apply (countWords lower stopwords b.Posts)).map wordPost⟩
    refine List.Pairwise.imp_of_mem ?_ hpw
    intro p q hp hq hpq
    rw [← keywordBoard_likes lower stopwords iter tie b p hp,
      ← keywordBoard_likes lower stopwords iter tie b q hq]
    exact hpq
  · rw [Keywords_eq, List.map_take]

/-- C12: whatever the order in which the map is iterated and the order the sort leaves
among equal counts, `Keywords` returns the top tokens by descending frequency.  The
returned list is the first 20 entries of a list of all the distinct tokens, each once, in
non-increasing order of the number of occurrences of the token over all titles: it holds
`min(20, d)` tokens for `d` distinct tokens, no token twice, in non-increasing order of
occurrences, and a token that is not returned occurs at most as often as every returned
token. -/
theorem Keywords_top_frequency (lower : Char → Char) (stopwords : List String)
    (iter : Reorder (String × Int)) (tie : Reorder Post) (b : Board) :
    (∃ ranking : List String,
      ranking.Perm (keywordTokens lower stopwords b.Posts).dedup ∧
      ranking.Pairwise (fun a c => occurrences lower stopwords b.Posts c ≤
        occurrences lower stopwords b.Posts a) ∧
      Keywords lower stopwords iter tie b = ranking.take 20) ∧
    (Keywords lower stopwords iter tie b).Nodup ∧
    (∀ k ∈ Keywords lower stopwords iter tie b, k ∈ keywordTokens lower stopwords b.Posts) ∧
    (Keywords lower stopwords iter tie b).length =
      min 20 (keywordTokens lower stopwords b.Posts).dedup.length ∧
    (Keywords lower stopwords iter tie b).Pairwise
      (fun a c => occurrences lower stopwords b.Posts c ≤
        occurrences lower stopwords b.Posts a) ∧
    (∀ w ∈ keywordTokens lower stopwords b.Posts, w ∉ Keywords lower stopwords iter tie b →
      ∀ k ∈ Keywords lower stopwords iter tie b,
        occurrences lower stopwords b.Posts w ≤ occurrences lower stopwords b.Posts k) ∧
    Keywords Char.toLower ["the"] (Reorder.same (String × Int)) (Reorder.same Post)
      ⟨[⟨1, "The Happy Dog", "", "", 10⟩, ⟨2, "Sad dog", "", "", 5⟩,
        ⟨3, "Happy Cat", "", "", 20⟩, ⟨4, "dog", "", "", 1⟩]⟩ =
      ["dog", "happy", "sad", "cat"] := by
  have hpw := SortPostsByLikes_pairwise tie
    ⟨(iter.apply (countWords lower stopwords b.Posts)).map wordPost⟩
  have hlikes := keywordBoard_likes lower stopwords iter tie b
  obtain ⟨ranking, hperm, hsorted, htake⟩ := Keywords_ranking lower stopwords iter tie b
  refine ⟨⟨ranking, hperm, hsorted, htake⟩, ?_, ?_, ?_, ?_, ?_, by decide⟩
  · rw [htake]
    exact ((hperm.nodup_iff).2 (List.nodup_dedup _)).sublist (List.take_sublist 20 ranking)
  · intro k hk
    rw [htake] at hk
    exact List.mem_dedup.1 (hperm.mem_iff.1 (List.mem_of_mem_take hk))
  · rw [htake, List.length_take, hperm.length_eq]
  · rw [Keywords_eq, List.pairwise_map]
    have htake := hpw.sublist (List.take_sublist 20 _)
    refine List.Pairwise.imp_of_mem ?_ htake
    intro p q hp hq hpq
    rw [← hlikes p (List.mem_of_mem_take hp), ← hlikes q (List.mem_of_mem_take hq)]
    exact hpq
  · intro w hw hnot k hk
    rw [Keywords_eq, List.mem_map] at hk
    obtain ⟨q, hq, hqk⟩ := hk
    have hkey : w ∈ (countWords lower stopwords b.Posts).map Prod.fst :=
      (countWords_keys lower stopwords b.Posts).2.mem_iff.2 (List.mem_dedup.2 hw)
    obtain ⟨wc, hwc, hwcw⟩ := List.mem_map.1 hkey
    have hp := (keywordBoard_mem lower stopwords iter tie b (wordPost wc)).2 ⟨wc, hwc, rfl⟩
    have htitle : (wordPost wc).Title = w := hwcw
    have hdrop : wordPost wc ∈ (SortPostsByLikes tie
        ⟨(iter.apply (countWords lower stopwords b.Posts)).map wordPost⟩).Posts.drop 20 := by
      rw [← List.take_append_drop 20 (SortPostsByLikes tie
        ⟨(iter.apply (countWords lower stopwords b.Posts)).map wordPost⟩).Posts] at hp
      rcases List.mem_append.1 hp with h | h
      · exfalso
        apply hnot
        rw [Keywords_eq, List.mem_map]
        exact ⟨wordPost wc, h, htitle⟩
      · exact h
    rw [← List.take_append_drop 20 (SortPostsByLikes tie
      ⟨(iter.apply (countWords lower stopwords b.Posts)).map wordPost⟩).Posts,
      List.pairwise_append] at hpw
    have hle := hpw.2.2 q hq (wordPost wc) hdrop
    rw [hlikes q (List.mem_of_mem_take hq), hlikes (wordPost wc) hp, htitle, hqk] at hle
    exact hle

/-! ## CSVToPost -/

/-- A value that `strconv.ParseInt` returns without an error is in the range of
`int64`. -/
theorem ParseInt_range (s : String) (v : Int) (h : ParseInt s = some v) :
    MinInt ≤ v ∧ v ≤ MaxInt := by
  have hI : MaxInt = 9223372036854775807 := rfl
  have hN : MinInt = -9223372036854775808 := rfl
  unfold ParseInt at h
  split at h
  · exact Option.noConfusion h
  · dsimp only at h
    split at h
    · exact Option.noConfusion h
    · split at h
      · exact Option.noConfusion h
      · rename_i un _
        split at h
        · split at h
          · exact Option.noConfusion h
          · injection h with h
            omega
        · split at h
          · exact Option.noConfusion h
          · injection h with h
            omega

/-- C13: for a row of at least five fields `CSVToPost` returns the post with the title
`row[1]`, the URL `row[2]`, the image `imageRootPath` followed by `row[3]`, the ID parsed
from `row[0]`, or 0 when it does not parse as a decimal 64 bit integer, and the likes
parsed from `row[4]`, or 0 likewise; each field depends on its own column only, and ID
and likes are in the range of `int64`. -/
theorem CSVToPost_row (row : List String) (h : 5 ≤ row.length) :
    CSVToPost row =
      some ⟨(ParseInt row[0]).getD 0, row[1], row[2], imageRootPath ++ row[3],
        (ParseInt row[4]).getD 0⟩ ∧
    imageRootPath = "https://img.reaction.pics/file/reaction-pics/" ∧
    MinInt ≤ (ParseInt row[0]).getD 0 ∧ (ParseInt row[0]).getD 0 ≤ MaxInt ∧
    MinInt ≤ (ParseInt row[4]).getD 0 ∧ (ParseInt row[4]).getD 0 ≤ MaxInt := by
  have hrange : ∀ s : String, MinInt ≤ (ParseInt s).getD 0 ∧ (ParseInt s).getD 0 ≤ MaxInt := by
    intro s
    cases hs : ParseInt s with
    | none => exact ⟨by decide, by decide⟩
    | some v => exact ParseInt_range s v hs
  refine ⟨?_, rfl, (hrange _).1, (hrange _).2, (hrange _).1, (hrange _).2⟩
  rcases row with _ | ⟨r0, _ | ⟨r1, _ | ⟨r2, _ | ⟨r3, _ | ⟨r4, rest⟩⟩⟩⟩⟩
  · simp at h
  · simp at h
  · simp at h
  · simp at h
  · simp at h
  · simp only [CSVToPost, List.getElem?_cons_zero, List.getElem?_cons_succ,
      List.getElem_cons_zero, List.getElem_cons_succ]
    cases ParseInt r0 <;> cases ParseInt r4 <;> rfl

/-- C13, at the row "notanumber", "Title", "http://x", "img.jpg", "notanumber": ID 0,
likes 0 and the image path built from "img.jpg". -/
theorem CSVToPost_row_witness :
    5 ≤ (["notanumber", "Title", "http://x", "img.jpg", "notanumber"] : List String).length ∧
    CSVToPost ["notanumber", "Title", "http://x", "img.jpg", "notanumber"] =
      some ⟨0, "Title", "http://x", "https://img.reaction.pics/file/reaction-pics/img.jpg", 0⟩ :=
  ⟨by decide,
    (CSVToPost_row ["notanumber", "Title", "http://x", "img.jpg", "notanumber"]
      (by decide)).1⟩

/-! ## GetPostByID -/

/-- The loop of `GetPostByID` finds nothing exactly when no post has the ID. -/
theorem findByID_eq_none (postID : Int) (posts : List Post) :
    findByID postID posts = none ↔ ∀ p ∈ posts, p.ID ≠ postID := by
  induction posts with
  | nil => simp [findByID]
  | cons q rest ih =>
    unfold findByID
    by_cases h : q.ID = postID
    · simp [h]
    · simp [h, ih]

/-- The loop of `GetPostByID` finds the first post that has the ID. -/
theorem findByID_eq_some (postID : Int) (posts : List Post) (p : Post) :
    findByID postID posts = some p ↔
      ∃ before after : List Post,
        posts = before ++ p :: after ∧ p.ID = postID ∧ ∀ q ∈ before, q.ID ≠ postID := by
  induction posts with
  | nil =>
    constructor
    · intro h; exact Option.noConfusion h
    · rintro ⟨before, after, h, _⟩
      exact absurd h.symm (by simp)
  | cons q rest ih =>
    unfold findByID
    by_cases hq : q.ID = postID
    · rw [if_pos hq]
      constructor
      · intro h
        injection h with h
        exact ⟨[], rest, by rw [h]; rfl, by rw [← h]; exact hq, fun x hx => absurd hx (List.not_mem_nil x)⟩
      · rintro ⟨before, after, h, hp, hbefore⟩
        cases before with
        | nil =>
          rw [List.nil_append] at h
          injection h with h1 _
          rw [h1]
        | cons x xs =>
          rw [List.cons_append] at h
          injection h with h1 _
          exact absurd (h1 ▸ hq) (hbefore x (List.mem_cons_self x xs))
    · rw [if_neg hq, ih]
      constructor
      · rintro ⟨before, after, h, hp, hbefore⟩
        refine ⟨q :: before, after, by rw [h]; rfl, hp, ?_⟩
        intro x hx
        rcases List.mem_cons.1 hx with h1 | h1
        · rw [h1]; exact hq
        · exact hbefore x h1
      · rintro ⟨before, after, h, hp, hbefore⟩
        cases before with
        | nil =>
          rw [List.nil_append] at h
          injection h with h1 _
          exact absurd (h1 ▸ hp) hq
        | cons x xs =>
          rw [List.cons_append] at h
          injection h with _ h2
          exact ⟨xs, after, h2, hp, fun y hy => hbefore y (List.mem_cons_of_mem x hy)⟩

/-- C14: `GetPostByID` returns `nil` exactly when no post of the sequence has the ID;
otherwise it returns the first post of the sequence with that ID, the posts before it
having other IDs; the sequence of the board is unchanged. -/
theorem GetPostByID_first (b : Board) (postID : Int) :
    ((GetPostByID b postID).1 = none ↔ ∀ p ∈ b.Posts, p.ID ≠ postID) ∧
    (∀ p : Post, (GetPostByID b postID).1 = some p ↔
      ∃ before after : List Post,
        b.Posts = before ++ p :: after ∧ p.ID = postID ∧ ∀ q ∈ before, q.ID ≠ postID) ∧
    (GetPostByID b postID).2 = b ∧
    (GetPostByID ⟨[⟨1, "Happy Dog", "", "", 10⟩, ⟨2, "Sad Dog", "", "", 5⟩,
      ⟨2, "Happy Cat", "", "", 20⟩]⟩ 2).1 = some ⟨2, "Sad Dog", "", "", 5⟩ :=
  ⟨findByID_eq_none postID b.Posts, findByID_eq_some postID b.Posts, rfl, by decide⟩

/-! ## InternalURL -/

/-- An ASCII rune takes one byte. -/
theorem utf8Size_ascii (c : Char) (h : c.toNat < 128) : c.utf8Size = 1 := by
  unfold Char.utf8Size
  have h1 : c.val ≤ UInt32.ofNatCore 127 (by decide) := by
    show c.val.toNat ≤ 127
    have : c.val.toNat = c.toNat := rfl
    omega
  rw [if_pos h1]

/-- The number of bytes of an ASCII string is the number of its runes. -/
theorem utf8Len_ascii (l : List Char) (h : ∀ c ∈ l, c.toNat < 128) :
    String.utf8Len l = l.length := by
  induction l with
  | nil => rfl
  | cons c cs ih =>
    rw [String.utf8Len_cons, ih (fun x hx => h x (List.mem_cons_of_mem c hx)),
      utf8Size_ascii c (h c (List.mem_cons_self c cs)), List.length_cons]

/-- The path of a post ends with the first 30 runes of the slug of the title. -/
theorem InternalURL_eq (slugger : Slugger) (p : Post) :
    InternalURL slugger p =
      "/post/" ++ FormatInt p.ID ++ "/" ++ String.mk ((slugger.make p.Title).toList.take 30) := by
  unfold InternalURL
  dsimp only
  by_cases h : (slugger.make p.Title).utf8ByteSize > 30
  · rw [if_pos h]
  · rw [if_neg h]
    have hbytes : (slugger.make p.Title).utf8ByteSize =
        (slugger.make p.Title).toList.length := by
      have h1 : (slugger.make p.Title).utf8ByteSize =
          String.utf8Len (slugger.make p.Title).toList := rfl
      rw [h1, utf8Len_ascii _ (slugger.ascii p.Title)]
    have hlen : (slugger.make p.Title).toList.length ≤ 30 := by omega
    rw [List.take_of_length_le hlen]
    rfl

/-- C15: `InternalURL` is "/post/", the decimal rendering of the ID, "/" and the slug of
the title cut to its first 30 characters; the part after "/post/<id>/" has at most 30
characters; the URL, the image and the likes of a post have no influence. -/
theorem InternalURL_shape (slugger : Slugger) (p : Post) (url image : String) (likes : Int) :
    InternalURL slugger p =
      "/post/" ++ FormatInt p.ID ++ "/" ++
        String.mk ((slugger.make p.Title).toList.take 30) ∧
    (String.mk ((slugger.make p.Title).toList.take 30)).length ≤ 30 ∧
    InternalURL slugger ⟨p.ID, p.Title, url, image, likes⟩ = InternalURL slugger p ∧
    InternalURL Slugger.asciiOnly ⟨42, "happy-dog-reacts-to-a-very-long-title", "", "", 0⟩ =
      "/post/42/happy-dog-reacts-to-a-very-lon" := by
  refine ⟨InternalURL_eq slugger p, ?_, ?_, by decide⟩
  · show ((slugger.make p.Title).toList.take 30).length ≤ 30
    rw [List.length_take]
    exact min_le_left _ _
  · rw [InternalURL_eq, InternalURL_eq]

/-! ## The search handler -/

/-- C16 (the code at the failing input): for the query "dog" on the board "Happy Dog"
(10 likes), "Sad Dog" (5 likes), "Happy Cat" (20 likes), whatever the shuffle and the
tie order, the page is "Happy Dog", "Sad Dog", "Happy Cat", with likes 10, 5, 20: it is
in order of rank, and the sort by likes is not run for a query that is not empty.  The
same page comes out of the board sorted by likes. -/
theorem searchHandler_page_not_by_likes (shuffle tie : Reorder Post) :
    searchHandler Char.toLower shuffle tie
        ⟨[⟨1, "Happy Dog", "", "", 10⟩, ⟨2, "Sad Dog", "", "", 5⟩,
          ⟨3, "Happy Cat", "", "", 20⟩]⟩ "dog" "0" =
      some ⟨0, 3, ⟨[⟨1, "Happy Dog", "", "", 10⟩, ⟨2, "Sad Dog", "", "", 5⟩,
        ⟨3, "Happy Cat", "", "", 20⟩]⟩⟩ ∧
    searchHandler Char.toLower shuffle tie
        ⟨[⟨3, "Happy Cat", "", "", 20⟩, ⟨1, "Happy Dog", "", "", 10⟩,
          ⟨2, "Sad Dog", "", "", 5⟩]⟩ "dog" "0" =
      some ⟨0, 3, ⟨[⟨1, "Happy Dog", "", "", 10⟩, ⟨2, "Sad Dog", "", "", 5⟩,
        ⟨3, "Happy Cat", "", "", 20⟩]⟩⟩ :=
  ⟨rfl, rfl⟩

/-- C18: `SortPostsByLikes` only reorders: the sequence after the call is a rearrangement
of the sequence before it, of the same length, with every post as often as before. -/
theorem SortPostsByLikes_perm (tie : Reorder Post) (b : Board) :
    (SortPostsByLikes tie b).Posts.Perm b.Posts ∧
    (SortPostsByLikes tie b).Posts.length = b.Posts.length ∧
    ∀ p : Post, (SortPostsByLikes tie b).Posts.count p = b.Posts.count p := by
  have h : (SortPostsByLikes tie b).Posts.Perm b.Posts := Slice_perm tie _ b.Posts
  exact ⟨h, h.length_eq, fun p => h.count_eq p⟩

/-- The board that `searchHandler` pages holds the posts of the board it searches. -/
theorem queriedBoard_perm (lower : Char → Char) (shuffle : Reorder Post) (board : Board)
    (q : String) :
    (if q = "" then RandomizePosts shuffle (FilterBoard lower board (Split q))
      else FilterBoard lower board (Split q)).Posts.Perm board.Posts := by
  by_cases h : q = ""
  · rw [if_pos h]
    exact (shuffle.perm _).trans (FilterBoard_perm lower board (Split q))
  · rw [if_neg h]
    exact FilterBoard_perm lower board (Split q)

/-- C20: for a request whose offset is not negative, on a board whose length plus 20 is
in the range of `int`, `searchHandler` answers with a page of at most `maxResults` = 20
posts, each of them a post of the board, and with `totalResults` equal to the number of
posts of the board, whatever the query. -/
theorem searchHandler_page (lower : Char → Char) (shuffle tie : Reorder Post) (board : Board)
    (query offsetString : String) (hoff : 0 ≤ requestOffset offsetString)
    (hlen : (board.Posts.length : Int) + maxResults ≤ MaxInt) :
    ∃ r : SearchResult,
      searchHandler lower shuffle tie board query offsetString = some r ∧
      (r.data.Posts.length : Int) ≤ maxResults ∧
      (∀ p ∈ r.data.Posts, p ∈ board.Posts) ∧
      r.totalResults = (board.Posts.length : Int) ∧
      r.offset = requestOffset offsetString := by
  obtain ⟨o, ho⟩ := Int.eq_ofNat_of_zero_le hoff
  have hM : maxResults = ((20 : Nat) : Int) := rfl
  have hperm := queriedBoard_perm lower shuffle board (TrimSpace (ToLower lower query))
  have hL := LimitBoard_eq_window
    (if TrimSpace (ToLower lower query) = ""
      then RandomizePosts shuffle
        (FilterBoard lower board (Split (TrimSpace (ToLower lower query))))
      else FilterBoard lower board (Split (TrimSpace (ToLower lower query)))) o 20
    (by
      rw [hperm.length_eq]
      rw [hM] at hlen
      have := min_le_right (o : Int) (board.Posts.length : Int)
      omega)
  have hwin : ∀ p ∈ ((if TrimSpace (ToLower lower query) = ""
      then RandomizePosts shuffle
        (FilterBoard lower board (Split (TrimSpace (ToLower lower query))))
      else FilterBoard lower board (Split (TrimSpace (ToLower lower query)))).Posts.drop o).take
        20, p ∈ board.Posts := by
    intro p hp
    exact hperm.mem_iff.1 (List.mem_of_mem_drop (List.mem_of_mem_take hp))
  have hwlen : (((if TrimSpace (ToLower lower query) = ""
      then RandomizePosts shuffle
        (FilterBoard lower board (Split (TrimSpace (ToLower lower query))))
      else FilterBoard lower board (Split (TrimSpace (ToLower lower query)))).Posts.drop o).take
        20).length ≤ 20 := by
    rw [List.length_take]
    exact min_le_left _ _
  have hsearch : searchHandler lower shuffle tie board query offsetString =
      match LimitBoard (if TrimSpace (ToLower lower query) = ""
          then RandomizePosts shuffle
            (FilterBoard lower board (Split (TrimSpace (ToLower lower query))))
          else FilterBoard lower board (Split (TrimSpace (ToLower lower query))))
        (requestOffset offsetString) maxResults with
      | none => none
      | some queriedBoard =>
        some ⟨requestOffset offsetString,
          ((if TrimSpace (ToLower lower query) = ""
            then RandomizePosts shuffle
              (FilterBoard lower board (Split (TrimSpace (ToLower lower query))))
            else FilterBoard lower board
              (Split (TrimSpace (ToLower lower query)))).Posts.length : Int),
          if TrimSpace (ToLower lower query) = "" then SortPostsByLikes tie queriedBoard
          else queriedBoard⟩ := rfl
  rw [hsearch, ho, hM, hL]
  refine ⟨_, rfl, ?_, ?_, ?_, rfl⟩
  · by_cases hq : TrimSpace (ToLower lower query) = ""
    · simp only [if_pos hq]
      have hs := (Slice_perm tie (fun x y : Post => decide (x.Likes > y.Likes))
        ((List.drop o (RandomizePosts shuffle (FilterBoard lower board
          (Split (TrimSpace (ToLower lower query))))).Posts).take 20)).length_eq
      rw [if_pos hq] at hwlen
      have hs2 : (SortPostsByLikes tie ⟨(List.drop o (RandomizePosts shuffle
          (FilterBoard lower board (Split (TrimSpace (ToLower lower query))))).Posts).take
            20⟩).Posts.length = ((List.drop o (RandomizePosts shuffle (FilterBoard lower board
          (Split (TrimSpace (ToLower lower query))))).Posts).take 20).length := hs
      rw [hs2]
      exact_mod_cast hwlen
    · simp only [if_neg hq]
      rw [if_neg hq] at hwlen
      exact_mod_cast hwlen
  · intro p hp
    by_cases hq : TrimSpace (ToLower lower query) = ""
    · simp only [if_pos hq] at hp
      rw [if_pos hq] at hwin
      have hs : (SortPostsByLikes tie ⟨(List.drop o (RandomizePosts shuffle
          (FilterBoard lower board (Split (TrimSpace (ToLower lower query))))).Posts).take
            20⟩).Posts.Perm ((List.drop o (RandomizePosts shuffle (FilterBoard lower board
          (Split (TrimSpace (ToLower lower query))))).Posts).take 20) := Slice_perm tie _ _
      exact hwin p (hs.mem_iff.1 hp)
    · simp only [if_neg hq] at hp
      rw [if_neg hq] at hwin
      exact hwin p hp
  · show ((_ : Nat) : Int) = _
    rw [hperm.length_eq]

/-- C20, at the board "Happy Dog", "Sad Dog", "Happy Cat", the query "dog" and the
offset "1". -/
theorem searchHandler_page_witness :
    0 ≤ requestOffset "1" ∧
    ∃ r : SearchResult,
      searchHandler Char.toLower (Reorder.same Post) (Reorder.same Post)
        ⟨[⟨1, "Happy Dog", "", "", 10⟩, ⟨2, "Sad Dog", "", "", 5⟩,
          ⟨3, "Happy Cat", "", "", 20⟩]⟩ "dog" "1" = some r ∧
      (r.data.Posts.length : Int) ≤ maxResults ∧
      (∀ p ∈ r.data.Posts, p ∈ ([⟨1, "Happy Dog", "", "", 10⟩, ⟨2, "Sad Dog", "", "", 5⟩,
          ⟨3, "Happy Cat", "", "", 20⟩] : List Post)) ∧
      r.totalResults = 3 ∧
      r.offset = requestOffset "1" :=
  ⟨by decide,
    searchHandler_page Char.toLower (Reorder.same Post) (Reorder.same Post)
      ⟨[⟨1, "Happy Dog", "", "", 10⟩, ⟨2, "Sad Dog", "", "", 5⟩, ⟨3, "Happy Cat", "", "", 20⟩]⟩
      "dog" "1" (by decide) (by decide)⟩

/-! ## The start value of the minimum -/

/-- The edit distance is at most the greater of the two lengths. -/
theorem levRunes_le_max (s t : List Char) : levRunes s t ≤ max s.length t.length := by
  induction s generalizing t with
  | nil => rw [levRunes_nil]; exact le_max_right _ _
  | cons a s ih =>
    cases t with
    | nil => rw [levRunes_nil_right]; exact le_max_left _ _
    | cons b t =>
      show min (min (levRunes s (b :: t) + 1) (levRow a (levRunes s) t + 1))
        (levRunes s t + if a = b then 0 else 1) ≤ _
      have h := ih t
      have h1 : (if a = b then 0 else 1) ≤ 1 := by split <;> omega
      simp only [List.length_cons]
      omega

/-- Splitting gives at least one segment, and no segment is longer than the whole. -/
theorem splitRunes_segments (sep : Char → Bool) (l : List Char) :
    splitRunes sep l ≠ [] ∧ ∀ w ∈ splitRunes sep l, w.length ≤ l.length := by
  induction l with
  | nil =>
    refine ⟨by simp [splitRunes], ?_⟩
    intro w hw
    simp only [splitRunes, List.mem_singleton] at hw
    rw [hw]
  | cons c cs ih =>
    obtain ⟨_, ih2⟩ := ih
    unfold splitRunes
    by_cases hc : sep c = true
    · rw [if_pos hc]
      refine ⟨by simp, ?_⟩
      intro w hw
      rcases List.mem_cons.1 hw with h | h
      · rw [h]; simp
      · have := ih2 w h
        simp only [List.length_cons]
        omega
    · rw [if_neg hc]
      cases hsp : splitRunes sep cs with
      | nil =>
        refine ⟨by simp, ?_⟩
        intro w hw
        simp only [List.mem_singleton] at hw
        rw [hw]
        simp
      | cons v vs =>
        rw [hsp] at ih2
        refine ⟨by simp, ?_⟩
        intro w hw
        rcases List.mem_cons.1 hw with h | h
        · rw [h]
          have := ih2 v (List.mem_cons_self v vs)
          simp only [List.length_cons]
          omega
        · have := ih2 w (List.mem_cons_of_mem v h)
          simp only [List.length_cons]
          omega

/-- The title always has a segment, and a segment has at most the runes of the title. -/
theorem Split_segments (title : String) :
    Split title ≠ [] ∧ ∀ w ∈ Split title, w.length ≤ title.length := by
  obtain ⟨h1, h2⟩ := splitRunes_segments (fun c => decide (c = ' ')) title.toList
  unfold Split
  refine ⟨?_, ?_⟩
  · intro h
    exact h1 (List.map_eq_nil_iff.1 h)
  · intro w hw
    obtain ⟨v, hv, hvw⟩ := List.mem_map.1 hw
    rw [← hvw]
    exact h2 v hv

/-- The distance between a term and a lower-cased segment is at most the greater of the
numbers of their runes. -/
theorem LevenshteinDistance_le_max (lower : Char → Char) (q w : String) :
    LevenshteinDistance q (ToLower lower w) ≤ ((max q.length w.length : Nat) : Int) := by
  unfold LevenshteinDistance
  have h := levRunes_le_max q.toList (ToLower lower w).toList
  have hl : (ToLower lower w).toList.length = w.length := ToLower_length lower w
  rw [hl] at h
  exact_mod_cast h

/-- For a term and a title of at most `MaxInt32` runes the start value `MaxInt32` is
not the result unless it is a distance: the inner loop returns the least distance to a
segment, which is at most the greater of the two numbers of runes. -/
theorem cappedMin_actual (lower : Char → Char) (q title : String)
    (hq : q.length ≤ 2147483647) (ht : title.length ≤ 2147483647) :
    IsLeast {d : Int | d ∈ segmentDistances lower q title}
      (cappedMin MaxInt32 (segmentDistances lower q title)) ∧
    cappedMin MaxInt32 (segmentDistances lower q title) ≤
      ((max q.length title.length : Nat) : Int) := by
  obtain ⟨hne, hseg⟩ := Split_segments title
  obtain ⟨hmem, hlb⟩ := cappedMin_isLeast MaxInt32 (segmentDistances lower q title)
  obtain ⟨w, hw⟩ := List.exists_mem_of_ne_nil _ hne
  have hd : LevenshteinDistance q (ToLower lower w) ∈ segmentDistances lower q title :=
    List.mem_map.2 ⟨w, hw, rfl⟩
  have hwlen := hseg w hw
  have hdle := LevenshteinDistance_le_max lower q w
  have hmax : ((max q.length w.length : Nat) : Int) ≤ ((max q.length title.length : Nat) : Int) := by
    have : max q.length w.length ≤ max q.length title.length := max_le_max (le_refl _) hwlen
    exact_mod_cast this
  have hcap : ((max q.length title.length : Nat) : Int) ≤ MaxInt32 := by
    have : max q.length title.length ≤ 2147483647 := max_le hq ht
    have hM : MaxInt32 = ((2147483647 : Nat) : Int) := rfl
    rw [hM]
    exact_mod_cast this
  have hle := hlb (Or.inr hd)
  refine ⟨⟨?_, fun d hd2 => hlb (Or.inr hd2)⟩, le_trans hle (le_trans hdle hmax)⟩
  rcases hmem with h | h
  · have heq : LevenshteinDistance q (ToLower lower w) = MaxInt32 := by
      have h1 : MaxInt32 ≤ LevenshteinDistance q (ToLower lower w) := by rw [← h]; exact hle
      exact le_antisymm (le_trans hdle (le_trans hmax hcap)) h1
    show cappedMin MaxInt32 (segmentDistances lower q title) ∈ segmentDistances lower q title
    rw [h, ← heq]
    exact hd
  · exact h

/-- For the empty title the distances of a term are the one distance to the empty
segment, the number of runes of the term. -/
theorem segmentDistances_empty_title (lower : Char → Char) (q : String) :
    segmentDistances lower q "" = [(q.length : Int)] := by
  have h1 : Split "" = [""] := rfl
  have h2 : ToLower lower "" = "" := rfl
  unfold segmentDistances
  rw [h1, List.map_singleton, h2]
  unfold LevenshteinDistance
  have h3 : ("" : String).toList = [] := rfl
  rw [h3, levRunes_nil_right]
  rfl

/-- For one term and the empty title the rank is the lesser of the number of runes of
the term and `MaxInt32`. -/
theorem multiWordRank_single_empty_title (lower : Char → Char) (q : String) (p : Post)
    (h : p.Title = "") :
    multiWordRank lower [q] p = min (q.length : Int) MaxInt32 := by
  rw [multiWordRank_single, h, segmentDistances_empty_title]
  rfl

/-- C19 (counterexample): for the empty title and one term of 2^31 runes, the result is
the start value `MaxInt32` = 2^31 - 1 of the minimum, and not the number of runes of
the term: the distance 2^31 to the empty segment is not less than the start value. -/
theorem multiWordRank_cap_reached :
    multiWordRank Char.toLower [String.mk (List.replicate 2147483648 'a')]
      ⟨0, "", "", "", 0⟩ = 2147483647 ∧
    ((String.mk (List.replicate 2147483648 'a')).length : Int) = 2147483648 := by
  have hlen : (String.mk (List.replicate 2147483648 'a')).length = 2147483648 := by
    show (List.replicate 2147483648 'a').length = 2147483648
    exact List.length_replicate _ _
  refine ⟨?_, by rw [hlen]; rfl⟩
  rw [multiWordRank_single_empty_title Char.toLower _ _ rfl, hlen]
  decide

/-- C19 (amended): for at most 2^32 query terms, each of at most `MaxInt32` = 2^31 - 1
runes, and a title of at most `MaxInt32` runes, the start value of the per-term minimum
is replaced by a distance.  Splitting a title on a space gives at least one segment (one
empty segment for the empty title); each term contributes the least Levenshtein
distance to a segment; the result is not negative and at most the sum over the terms of
the greater of the rune length of the term and the rune length of the title; for the
empty title it is the sum of the rune lengths of the terms. -/
theorem multiWordRank_bounds (lower : Char → Char) (queries : List String) (post : Post)
    (hn : queries.length ≤ 4294967296)
    (hq : ∀ q ∈ queries, q.length ≤ 2147483647)
    (ht : post.Title.length ≤ 2147483647) :
    (Split post.Title ≠ [] ∧ Split "" = [""]) ∧
    multiWordRank lower queries post =
      (queries.map (fun q => minWordDistance lower q (Split post.Title) MaxInt32)).sum ∧
    (∀ q ∈ queries,
      IsLeast {d : Int | d ∈ segmentDistances lower q post.Title}
        (minWordDistance lower q (Split post.Title) MaxInt32)) ∧
    0 ≤ multiWordRank lower queries post ∧
    multiWordRank lower queries post ≤
      (queries.map (fun q => ((max q.length post.Title.length : Nat) : Int))).sum ∧
    (post.Title = "" →
      multiWordRank lower queries post = (queries.map (fun q => (q.length : Int))).sum) := by
  have hmin : ∀ q : String, minWordDistance lower q (Split post.Title) MaxInt32 =
      cappedMin MaxInt32 (segmentDistances lower q post.Title) :=
    fun q => minWordDistance_eq lower q (Split post.Title) MaxInt32
  have hmax : (0 : Int) + (queries.length : Int) * MaxInt32 ≤ MaxInt := by
    have h1 : (queries.length : Int) ≤ 4294967296 := by exact_mod_cast hn
    have hM : MaxInt32 = 2147483647 := rfl
    have hI : MaxInt = 9223372036854775807 := rfl
    rw [hM, hI]
    omega
  have hsum : multiWordRank lower queries post =
      (queries.map (fun q => cappedMin MaxInt32 (segmentDistances lower q post.Title))).sum := by
    unfold multiWordRank
    rw [multiWordRankLoop_eq lower post queries 0 (le_refl 0) hmax]
    simp
  refine ⟨⟨(Split_segments post.Title).1, rfl⟩, ?_, ?_, ?_, ?_, ?_⟩
  · rw [hsum]
    congr 1
    apply List.map_congr_left
    intro q _
    exact (hmin q).symm
  · intro q hqm
    rw [hmin q]
    exact (cappedMin_actual lower q post.Title (hq q hqm) ht).1
  · rw [hsum]
    apply List.sum_nonneg
    intro d hd
    obtain ⟨q, _, hqd⟩ := List.mem_map.1 hd
    rw [← hqd]
    exact (cappedMin_range lower q post.Title).1
  · rw [hsum]
    apply List.sum_le_sum
    intro q hqm
    exact (cappedMin_actual lower q post.Title (hq q hqm) ht).2
  · intro hempty
    rw [hsum]
    congr 1
    apply List.map_congr_left
    intro q hqm
    rw [hempty, segmentDistances_empty_title]
    show min (q.length : Int) MaxInt32 = (q.length : Int)
    have hM : MaxInt32 = 2147483647 := rfl
    have := hq q hqm
    rw [hM]
    omega

/-- C19 (amended), at the terms "sad" and "dgo" and the title "Sad Dog". -/
theorem multiWordRank_bounds_witness :
    (["sad", "dgo"] : List String).length ≤ 4294967296 ∧
    (∀ q ∈ (["sad", "dgo"] : List String), q.length ≤ 2147483647) ∧
    (⟨2, "Sad Dog", "", "", 5⟩ : Post).Title.length ≤ 2147483647 ∧
    0 ≤ multiWordRank Char.toLower ["sad", "dgo"] ⟨2, "Sad Dog", "", "", 5⟩ ∧
    multiWordRank Char.toLower ["sad", "dgo"] ⟨2, "Sad Dog", "", "", 5⟩ ≤
      ((["sad", "dgo"] : List String).map
        (fun q => ((max q.length (⟨2, "Sad Dog", "", "", 5⟩ : Post).Title.length : Nat) :
          Int))).sum :=
  ⟨by decide, by decide, by decide,
    (multiWordRank_bounds Char.toLower ["sad", "dgo"] ⟨2, "Sad Dog", "", "", 5⟩
      (by decide) (by decide) (by decide)).2.2.2.1,
    (multiWordRank_bounds Char.toLower ["sad", "dgo"] ⟨2, "Sad Dog", "", "", 5⟩
      (by decide) (by decide) (by decide)).2.2.2.2.1⟩

end ReactionPics
